import Mathlib

/-!
Verification of the one-shot notification primitive `gms::feature`
(src/gms/feature.hh).

A `feature` ("gate") holds an `_enabled` flag, a `shared_promise<> _pr`
and a `boost::signals2` signal `_s`.  A `listener` ("observer handle")
owns a `scoped_connection _conn` and a slot whose callback first runs
`_conn.disconnect()` and only then `on_enabled()`.
`when_enabled(listener&)` connects the listener's slot and, if the gate
is already enabled, invokes the whole signal `_s()`.

The embedding below models this faithfully:

* the signal's slot list is a `List Slot` in connection order; each slot
  carries the unique id of its `boost::signals2` connection (`cid`), the
  id of the owning listener (`owner`), a connected flag and the
  listener's reaction;
* `boost::signals2` invocation semantics: a signal invocation walks a
  snapshot of the slot list taken at invocation start, skipping slots
  that are no longer connected when their turn comes; slots connected
  during an invocation are not called by that invocation (they are not
  in the snapshot); connecting appends at the back; `disconnect` is
  idempotent; move-assigning a `scoped_connection` disconnects the
  previously held connection;
* reactions (`on_enabled` bodies) are drawn from a small language:
  a plain action, re-entrant registration of another listener on the
  same gate, or destruction of a listener handle — the behaviours the
  specification's properties exercise;
* the interpreter `run1` is structurally recursive on a fuel argument
  (every recursive call decrements it), so it is executable and reduces
  by `rfl`/`decide` on concrete inputs; `RunsTo`/`OpsRunTo` say that a
  run succeeds for every sufficiently large fuel.

Every reaction invocation is logged as an `Ev` recording the connection
id, the listener id, the values of `_enabled` and of the shared
promise's resolved flag at that moment, and the id of the signal
invocation ("pass") that delivered it.
-/

namespace Gms

/-- A listener's `on_enabled` body, restricted to the shapes the
specification's properties exercise: a plain action, an action that
re-entrantly registers another listener on the same gate, or an action
that destroys a listener handle. -/
inductive Reaction where
  | act : Reaction
  | register (lid : Nat) (sub : Reaction) : Reaction
  | destroy (lid : Nat) : Reaction
deriving DecidableEq

/-- One slot of the boost::signals2 slot list: the connection id, the
owning listener, whether the connection is still connected, and the
listener's reaction. -/
structure Slot where
  cid : Nat
  owner : Nat
  connected : Bool
  reaction : Reaction
deriving DecidableEq

/-- A logged reaction invocation: which connection fired, which
listener, the gate's `_enabled` and promise-resolved flags at the moment
`on_enabled` starts, and the id of the signal invocation that delivered
it. -/
structure Ev where
  cid : Nat
  lid : Nat
  enabledAt : Bool
  prAt : Bool
  passId : Nat
deriving DecidableEq

/-- The state of one `gms::feature` together with its listeners'
`_conn` fields.  `prResolved`/`prSetCount` model `shared_promise<> _pr`
(resolved flag, number of `set_value` calls); `slots` is the signal's
slot list in connection order; `lconn lid` is listener `lid`'s `_conn`
(the id of the connection it currently holds, if any); `nextCid` and
`nextPass` are fresh-id counters; `log` records reaction invocations. -/
structure GateState where
  enabled : Bool
  prResolved : Bool
  prSetCount : Nat
  slots : List Slot
  lconn : Nat → Option Nat
  nextCid : Nat
  nextPass : Nat
  log : List Ev

/-- A freshly constructed, not-initially-enabled gate
(`feature()` / `explicit feature(service, name, enabled = false)`). -/
def initState : GateState :=
  { enabled := false, prResolved := false, prSetCount := 0, slots := [],
    lconn := fun _ => none, nextCid := 0, nextPass := 0, log := [] }

/-- `connection::disconnect()` on connection `c`: the slot holding `c`
becomes disconnected.  Idempotent, as in boost::signals2. -/
def disconnectCid (c : Nat) (s : GateState) : GateState :=
  { s with slots := s.slots.map fun sl =>
      if sl.cid = c then { sl with connected := false } else sl }

/-- Disconnect whatever connection a `scoped_connection` currently
holds (nothing, if it holds none). -/
def disconnectConn : Option Nat → GateState → GateState
  | none, s => s
  | some c, s => disconnectCid c s

/-- Is connection `c` still live (present and connected)? -/
def connOf (c : Nat) (s : GateState) : Bool :=
  s.slots.any fun sl => sl.cid == c && sl.connected

/-- Number of live connections currently owned by listener `lid`. -/
def liveConnCount (lid : Nat) (s : GateState) : Nat :=
  (s.slots.filter fun sl => sl.owner == lid && sl.connected).length

/-- The prefix of `listener::callback()` that runs before the reaction
body: `_conn.disconnect();` followed by entering `on_enabled()` — the
entry is logged as an `Ev` carrying connection `c`, listener `lid`, the
gate flags at this moment and the delivering pass id. -/
def callbackEntry (c lid pass : Nat) (s : GateState) : GateState :=
  let s1 := disconnectConn (s.lconn lid) s
  { s1 with log := s1.log ++ [⟨c, lid, s1.enabled, s1.prResolved, pass⟩] }

/-- Destruction of listener `lid`'s handle: `~scoped_connection`
disconnects the held connection; the handle is gone afterwards
(`lconn lid = none`). -/
def destroyListener (lid : Nat) (s : GateState) : GateState :=
  let s1 := disconnectConn (s.lconn lid) s
  { s1 with lconn := fun l => if l = lid then none else s1.lconn l }

/-- The state after the connection steps of `when_enabled(listener&)`:
`callback.set_connection(_s.connect(callback.get_slot()));`.
`_s.connect` appends a fresh connection at the back of the slot list;
the move-assignment inside `set_connection` stores the new connection in
`_conn` and disconnects the connection previously held there. -/
def regState (lid : Nat) (r : Reaction) (s : GateState) : GateState :=
  disconnectConn (s.lconn lid)
    { s with slots := s.slots ++ [⟨s.nextCid, lid, true, r⟩],
             lconn := fun l => if l = lid then some s.nextCid else s.lconn l,
             nextCid := s.nextCid + 1 }

/-- Pending work for the interpreter: run a reaction body, walk a
signal-invocation snapshot, or perform `when_enabled(listener&)`. -/
inductive Job where
  | react (r : Reaction) : Job
  | fire (pass : Nat) (snap : List Nat) : Job
  | reg (lid : Nat) (r : Reaction) : Job
deriving DecidableEq

/-- Fuel-indexed interpreter.  `.react r` runs a reaction body;
`.fire pass snap` walks the snapshot of a signal invocation, invoking
`listener::callback` (disconnect, log, reaction) for each slot still
connected at its turn; `.reg lid r` performs `when_enabled(listener&)`:
connect, replace `_conn`, and — if the gate is enabled — invoke the
whole signal `_s()` on a fresh snapshot.  Structural recursion on fuel,
so concrete runs evaluate by `rfl`. -/
def run1 : Nat → Job → GateState → Option GateState
  | 0, _, _ => none
  | _ + 1, .react .act, s => some s
  | _ + 1, .react (.destroy j), s => some (destroyListener j s)
  | fuel + 1, .react (.register j r), s => run1 fuel (.reg j r) s
  | fuel + 1, .reg lid r, s =>
      let s3 := regState lid r s
      if s3.enabled then
        run1 fuel (.fire s3.nextPass (s3.slots.map Slot.cid))
          { s3 with nextPass := s3.nextPass + 1 }
      else some s3
  | fuel + 1, .fire pass snap, s =>
      match snap with
      | [] => some s
      | c :: rest =>
        match s.slots.find? (fun sl => sl.cid == c) with
        | some sl =>
          if sl.connected then
            (run1 fuel (.react sl.reaction)
                (callbackEntry sl.cid sl.owner pass s)).bind
              (fun s1 => run1 fuel (.fire pass rest) s1)
          else run1 fuel (.fire pass rest) s
        | none => run1 fuel (.fire pass rest) s

/-- `when_enabled(listener&)` with the given fuel. -/
def whenEnabledListener (fuel lid : Nat) (r : Reaction) (s : GateState) :
    Option GateState :=
  run1 fuel (.reg lid r) s

/-- One signal invocation `_s()`: take a fresh pass id and the snapshot
of the current slot list, then walk it. -/
def fireSignal (fuel : Nat) (s : GateState) : Option GateState :=
  run1 fuel (.fire s.nextPass (s.slots.map Slot.cid))
    { s with nextPass := s.nextPass + 1 }

/-- Modelled from the spec: the state of the gate after steps (1) and
(2) of the transition — `enabled` set to `true` first, the shared
promise resolved second (`_pr.set_value()`, counted by `prSetCount`). -/
def enabledPre (s : GateState) : GateState :=
  { s with enabled := true, prResolved := true,
           prSetCount := s.prSetCount + 1 }

/-- Modelled from the spec: the body of `feature::enable()` is declared
in src/gms/feature.hh but not defined under src/.  Per the spec, the
transition performs, in order: (1) set `enabled = true`; (2) resolve
`shared_result`; (3) invoke the broadcaster, synchronously, once. -/
def enableOp (fuel : Nat) (s : GateState) : Option GateState :=
  fireSignal fuel (enabledPre s)

/-- `when_enabled()` (the future-returning overload): returns
`_pr.get_shared_future()`.  Attaching to the shared promise performs no
state change on the gate. -/
def awaitOp (s : GateState) : GateState := s

/-- Whether the shared future obtained from `when_enabled()` is resolved
in state `s`: it reads the single shared promise `_pr` of the gate. -/
def futResolved (s : GateState) : Bool := s.prResolved

/-- External operations on one gate: register a listener
(`when_enabled(listener&)` / `when_enabled(noncopyable_function)`),
enable the gate, destroy a listener handle, or call the
future-returning `when_enabled()`. -/
inductive Op where
  | register (lid : Nat) (r : Reaction) : Op
  | enable : Op
  | destroy (lid : Nat) : Op
  | await : Op
deriving DecidableEq

/-- Perform one external operation. -/
def runOp (fuel : Nat) : Op → GateState → Option GateState
  | .register lid r, s => whenEnabledListener fuel lid r s
  | .enable, s => enableOp fuel s
  | .destroy lid, s => some (destroyListener lid s)
  | .await, s => some (awaitOp s)

/-- Perform a sequence of external operations. -/
def runOps (fuel : Nat) : List Op → GateState → Option GateState
  | [], s => some s
  | op :: ops, s => (runOp fuel op s).bind (runOps fuel ops)

/-- The job `j` run from `s` succeeds with result `s'` for every
sufficiently large fuel. -/
def RunsTo (j : Job) (s s' : GateState) : Prop :=
  ∃ n, ∀ fuel, n ≤ fuel → run1 fuel j s = some s'

/-- The operation sequence run from `s` succeeds with result `s'` for
every sufficiently large fuel. -/
def OpsRunTo (ops : List Op) (s s' : GateState) : Prop :=
  ∃ n, ∀ fuel, n ≤ fuel → runOps fuel ops s = some s'

/-- One operation run from `s` succeeds with result `s'` for every
sufficiently large fuel. -/
def OpRunsTo (op : Op) (s s' : GateState) : Prop :=
  ∃ n, ∀ fuel, n ≤ fuel → runOp fuel op s = some s'

/-! ### Field lemmas for the primitive state transforms -/

@[simp] theorem disconnectCid_enabled (c : Nat) (s : GateState) :
    (disconnectCid c s).enabled = s.enabled := rfl

@[simp] theorem disconnectCid_prResolved (c : Nat) (s : GateState) :
    (disconnectCid c s).prResolved = s.prResolved := rfl

@[simp] theorem disconnectCid_prSetCount (c : Nat) (s : GateState) :
    (disconnectCid c s).prSetCount = s.prSetCount := rfl

@[simp] theorem disconnectCid_lconn (c : Nat) (s : GateState) :
    (disconnectCid c s).lconn = s.lconn := rfl

@[simp] theorem disconnectCid_nextCid (c : Nat) (s : GateState) :
    (disconnectCid c s).nextCid = s.nextCid := rfl

@[simp] theorem disconnectCid_nextPass (c : Nat) (s : GateState) :
    (disconnectCid c s).nextPass = s.nextPass := rfl

@[simp] theorem disconnectCid_log (c : Nat) (s : GateState) :
    (disconnectCid c s).log = s.log := rfl

theorem disconnectConn_enabled (o : Option Nat) (s : GateState) :
    (disconnectConn o s).enabled = s.enabled := by cases o <;> rfl

theorem disconnectConn_prResolved (o : Option Nat) (s : GateState) :
    (disconnectConn o s).prResolved = s.prResolved := by cases o <;> rfl

theorem disconnectConn_prSetCount (o : Option Nat) (s : GateState) :
    (disconnectConn o s).prSetCount = s.prSetCount := by cases o <;> rfl

theorem disconnectConn_lconn (o : Option Nat) (s : GateState) :
    (disconnectConn o s).lconn = s.lconn := by cases o <;> rfl

theorem disconnectConn_nextCid (o : Option Nat) (s : GateState) :
    (disconnectConn o s).nextCid = s.nextCid := by cases o <;> rfl

theorem disconnectConn_nextPass (o : Option Nat) (s : GateState) :
    (disconnectConn o s).nextPass = s.nextPass := by cases o <;> rfl

theorem disconnectConn_log (o : Option Nat) (s : GateState) :
    (disconnectConn o s).log = s.log := by cases o <;> rfl

theorem regState_enabled (lid : Nat) (r : Reaction) (s : GateState) :
    (regState lid r s).enabled = s.enabled := by
  simp [regState, disconnectConn_enabled]

theorem regState_prResolved (lid : Nat) (r : Reaction) (s : GateState) :
    (regState lid r s).prResolved = s.prResolved := by
  simp [regState, disconnectConn_prResolved]

theorem regState_nextPass (lid : Nat) (r : Reaction) (s : GateState) :
    (regState lid r s).nextPass = s.nextPass := by
  simp [regState, disconnectConn_nextPass]

theorem regState_nextCid (lid : Nat) (r : Reaction) (s : GateState) :
    (regState lid r s).nextCid = s.nextCid + 1 := by
  simp [regState, disconnectConn_nextCid]

theorem regState_log (lid : Nat) (r : Reaction) (s : GateState) :
    (regState lid r s).log = s.log := by
  simp [regState, disconnectConn_log]

theorem regState_lconn (lid : Nat) (r : Reaction) (s : GateState) :
    (regState lid r s).lconn =
      fun l => if l = lid then some s.nextCid else s.lconn l := by
  simp [regState, disconnectConn_lconn]

/-! ### The interpreter's unfolding equations -/

theorem run1_zero (j : Job) (s : GateState) : run1 0 j s = none := rfl

theorem run1_react_act (n : Nat) (s : GateState) :
    run1 (n + 1) (.react .act) s = some s := rfl

theorem run1_react_destroy (n j : Nat) (s : GateState) :
    run1 (n + 1) (.react (.destroy j)) s = some (destroyListener j s) := rfl

theorem run1_react_register (n j : Nat) (r : Reaction) (s : GateState) :
    run1 (n + 1) (.react (.register j r)) s = run1 n (.reg j r) s := rfl

theorem run1_reg (n lid : Nat) (r : Reaction) (s : GateState) :
    run1 (n + 1) (.reg lid r) s =
      if (regState lid r s).enabled then
        run1 n (.fire (regState lid r s).nextPass
              ((regState lid r s).slots.map Slot.cid))
          { regState lid r s with
              nextPass := (regState lid r s).nextPass + 1 }
      else some (regState lid r s) := rfl

theorem run1_fire_nil (n pass : Nat) (s : GateState) :
    run1 (n + 1) (.fire pass []) s = some s := rfl

theorem run1_fire_cons (n pass c : Nat) (rest : List Nat) (s : GateState) :
    run1 (n + 1) (.fire pass (c :: rest)) s =
      match s.slots.find? (fun sl => sl.cid == c) with
      | some sl =>
        if sl.connected then
          (run1 n (.react sl.reaction)
              (callbackEntry sl.cid sl.owner pass s)).bind
            (fun s1 => run1 n (.fire pass rest) s1)
        else run1 n (.fire pass rest) s
      | none => run1 n (.fire pass rest) s := rfl

/-! ### Fuel monotonicity -/

theorem run1_mono : ∀ {n : Nat} {j : Job} {s s' : GateState},
    run1 n j s = some s' → run1 (n + 1) j s = some s' := by
  intro n
  induction n with
  | zero => intro j s s' h; simp [run1_zero] at h
  | succ n ih =>
    intro j s s' h
    match j with
    | .react .act => exact h
    | .react (.destroy k) => exact h
    | .react (.register k r) =>
      rw [run1_react_register] at h
      rw [run1_react_register]
      exact ih h
    | .reg lid r =>
      rw [run1_reg] at h
      rw [run1_reg]
      by_cases he : (regState lid r s).enabled
      · rw [if_pos he] at h
        rw [if_pos he]
        exact ih h
      · rw [if_neg he] at h
        rw [if_neg he]
        exact h
    | .fire pass snap =>
      match snap with
      | [] => exact h
      | c :: rest =>
        rw [run1_fire_cons] at h
        rw [run1_fire_cons]
        cases hf : s.slots.find? (fun sl => sl.cid == c) with
        | none => rw [hf] at h; exact ih h
        | some sl =>
          rw [hf] at h
          have h2 : (if sl.connected = true then
              (run1 n (.react sl.reaction)
                  (callbackEntry sl.cid sl.owner pass s)).bind
                (fun s1 => run1 n (.fire pass rest) s1)
            else run1 n (.fire pass rest) s) = some s' := h
          show (if sl.connected = true then
              (run1 (n + 1) (.react sl.reaction)
                  (callbackEntry sl.cid sl.owner pass s)).bind
                (fun s1 => run1 (n + 1) (.fire pass rest) s1)
            else run1 (n + 1) (.fire pass rest) s) = some s'
          by_cases hc : sl.connected = true
          · rw [if_pos hc] at h2
            rw [if_pos hc]
            obtain ⟨s1, ha, hb⟩ := Option.bind_eq_some.mp h2
            rw [ih ha]
            exact ih hb
          · rw [if_neg hc] at h2
            rw [if_neg hc]
            exact ih h2

theorem run1_mono_le {n m : Nat} {j : Job} {s s' : GateState}
    (hle : n ≤ m) (h : run1 n j s = some s') : run1 m j s = some s' := by
  induction m with
  | zero =>
    have : n = 0 := Nat.le_zero.mp hle
    subst this; exact h
  | succ m ih =>
    rcases Nat.lt_or_ge n (m + 1) with hlt | hge
    · exact run1_mono (ih (Nat.lt_succ_iff.mp hlt))
    · have : n = m + 1 := Nat.le_antisymm hle hge
      subst this; exact h

/-! ### `RunsTo` introduction and composition -/

theorem runsTo_of_run1 {n : Nat} {j : Job} {s s' : GateState}
    (h : run1 n j s = some s') : RunsTo j s s' :=
  ⟨n, fun _ hf => run1_mono_le hf h⟩

theorem runsTo_fire_nil (pass : Nat) (s : GateState) :
    RunsTo (.fire pass []) s s :=
  runsTo_of_run1 (n := 1) rfl

theorem runsTo_react_act (s : GateState) : RunsTo (.react .act) s s :=
  runsTo_of_run1 (n := 1) rfl

theorem runsTo_react_destroy (j : Nat) (s : GateState) :
    RunsTo (.react (.destroy j)) s (destroyListener j s) :=
  runsTo_of_run1 (n := 1) rfl

theorem runsTo_react_register {j : Nat} {r : Reaction} {s s' : GateState}
    (h : RunsTo (.reg j r) s s') : RunsTo (.react (.register j r)) s s' := by
  obtain ⟨n, hn⟩ := h
  refine runsTo_of_run1 (n := n + 1) ?_
  rw [run1_react_register]
  exact hn n le_rfl

theorem runsTo_reg_disabled {lid : Nat} {r : Reaction} {s : GateState}
    (h : (regState lid r s).enabled = false) :
    RunsTo (.reg lid r) s (regState lid r s) := by
  refine runsTo_of_run1 (n := 0 + 1) ?_
  rw [run1_reg, if_neg (by simp [h])]

theorem runsTo_reg_enabled {lid : Nat} {r : Reaction} {s s' : GateState}
    (h : (regState lid r s).enabled = true)
    (hfire : RunsTo (.fire (regState lid r s).nextPass
        ((regState lid r s).slots.map Slot.cid))
      { regState lid r s with
          nextPass := (regState lid r s).nextPass + 1 } s') :
    RunsTo (.reg lid r) s s' := by
  obtain ⟨n, hn⟩ := hfire
  refine runsTo_of_run1 (n := n + 1) ?_
  rw [run1_reg, if_pos h]
  exact hn n le_rfl

theorem runsTo_fire_cons_conn {pass c : Nat} {rest : List Nat}
    {s s2 : GateState} {sl : Slot}
    (hfind : s.slots.find? (fun sl => sl.cid == c) = some sl)
    (hc : sl.connected = true) (s1 : GateState)
    (h1 : RunsTo (.react sl.reaction) (callbackEntry sl.cid sl.owner pass s) s1)
    (h2 : RunsTo (.fire pass rest) s1 s2) :
    RunsTo (.fire pass (c :: rest)) s s2 := by
  obtain ⟨n1, hn1⟩ := h1
  obtain ⟨n2, hn2⟩ := h2
  refine runsTo_of_run1 (n := n1 + n2 + 1) ?_
  rw [run1_fire_cons, hfind]
  show (if sl.connected = true then
      (run1 (n1 + n2) (.react sl.reaction)
          (callbackEntry sl.cid sl.owner pass s)).bind
        (fun x => run1 (n1 + n2) (.fire pass rest) x)
    else run1 (n1 + n2) (.fire pass rest) s) = some s2
  rw [if_pos hc, hn1 (n1 + n2) (Nat.le_add_right n1 n2)]
  exact hn2 (n1 + n2) (Nat.le_add_left n2 n1)

theorem runsTo_fire_cons_skip_dis {pass c : Nat} {rest : List Nat}
    {s s' : GateState} {sl : Slot}
    (hfind : s.slots.find? (fun sl => sl.cid == c) = some sl)
    (hc : sl.connected = false)
    (h : RunsTo (.fire pass rest) s s') :
    RunsTo (.fire pass (c :: rest)) s s' := by
  obtain ⟨n, hn⟩ := h
  refine runsTo_of_run1 (n := n + 1) ?_
  rw [run1_fire_cons, hfind]
  show (if sl.connected = true then
      (run1 n (.react sl.reaction)
          (callbackEntry sl.cid sl.owner pass s)).bind
        (fun x => run1 n (.fire pass rest) x)
    else run1 n (.fire pass rest) s) = some s'
  rw [if_neg (by simp [hc])]
  exact hn n le_rfl

theorem runsTo_fire_cons_skip_none {pass c : Nat} {rest : List Nat}
    {s s' : GateState}
    (hfind : s.slots.find? (fun sl => sl.cid == c) = none)
    (h : RunsTo (.fire pass rest) s s') :
    RunsTo (.fire pass (c :: rest)) s s' := by
  obtain ⟨n, hn⟩ := h
  refine runsTo_of_run1 (n := n + 1) ?_
  rw [run1_fire_cons, hfind]
  exact hn n le_rfl

/-! ### `OpsRunTo` introduction and composition -/

theorem runOps_append (fuel : Nat) (a b : List Op) (s : GateState) :
    runOps fuel (a ++ b) s = (runOps fuel a s).bind (runOps fuel b) := by
  induction a generalizing s with
  | nil => simp [runOps]
  | cons op ops ih =>
    simp only [List.cons_append, runOps]
    cases runOp fuel op s with
    | none => simp
    | some s1 => simp [ih]

theorem opsRunTo_nil (s : GateState) : OpsRunTo [] s s :=
  ⟨0, fun _ _ => rfl⟩

theorem opsRunTo_cons {op : Op} {ops : List Op} {s s1 s2 : GateState}
    (h1 : OpRunsTo op s s1) (h2 : OpsRunTo ops s1 s2) :
    OpsRunTo (op :: ops) s s2 := by
  obtain ⟨n1, hn1⟩ := h1
  obtain ⟨n2, hn2⟩ := h2
  refine ⟨max n1 n2, fun fuel hf => ?_⟩
  show (runOp fuel op s).bind (runOps fuel ops) = some s2
  rw [hn1 fuel (le_trans (Nat.le_max_left n1 n2) hf)]
  exact hn2 fuel (le_trans (Nat.le_max_right n1 n2) hf)

theorem opsRunTo_append {a b : List Op} {s s1 s2 : GateState}
    (h1 : OpsRunTo a s s1) (h2 : OpsRunTo b s1 s2) :
    OpsRunTo (a ++ b) s s2 := by
  obtain ⟨n1, hn1⟩ := h1
  obtain ⟨n2, hn2⟩ := h2
  refine ⟨max n1 n2, fun fuel hf => ?_⟩
  rw [runOps_append, hn1 fuel (le_trans (Nat.le_max_left n1 n2) hf)]
  exact hn2 fuel (le_trans (Nat.le_max_right n1 n2) hf)

theorem opRunsTo_register {lid : Nat} {r : Reaction} {s s' : GateState}
    (h : RunsTo (.reg lid r) s s') : OpRunsTo (.register lid r) s s' := h

theorem opRunsTo_destroy (lid : Nat) (s : GateState) :
    OpRunsTo (.destroy lid) s (destroyListener lid s) :=
  ⟨0, fun _ _ => rfl⟩

theorem opRunsTo_await (s : GateState) : OpRunsTo .await s s :=
  ⟨0, fun _ _ => rfl⟩

theorem opRunsTo_enable {s s' : GateState}
    (h : RunsTo (.fire (enabledPre s).nextPass
        ((enabledPre s).slots.map Slot.cid))
      { enabledPre s with nextPass := (enabledPre s).nextPass + 1 } s') :
    OpRunsTo .enable s s' := h

/-! ### What any interpreter run preserves

`run1` never touches `enabled`, the shared promise, or its `set_value`
count (only the spec-modelled `enableOp` does); connection ids grow
monotonically; the log only grows; a connection that is dead stays dead
forever (nothing ever reconnects a slot); and every new log entry fired
through a connection that was live at the start of the run or one
created during it. -/

structure Inv (s s' : GateState) : Prop where
  enabled_eq : s'.enabled = s.enabled
  pr_eq : s'.prResolved = s.prResolved
  cnt_eq : s'.prSetCount = s.prSetCount
  cid_le : s.nextCid ≤ s'.nextCid
  log_ext : ∃ t, s'.log = s.log ++ t
  dead_stays : ∀ c, connOf c s = false → c < s.nextCid → connOf c s' = false
  new_ev : ∀ e ∈ s'.log, e ∈ s.log ∨ connOf e.cid s = true ∨ s.nextCid ≤ e.cid

theorem Inv.refl (s : GateState) : Inv s s :=
  ⟨rfl, rfl, rfl, le_rfl, ⟨[], by simp⟩, fun _ h _ => h,
    fun _ he => Or.inl he⟩

theorem Inv.trans {s s1 s2 : GateState} (a : Inv s s1) (b : Inv s1 s2) :
    Inv s s2 := by
  refine ⟨b.enabled_eq.trans a.enabled_eq, b.pr_eq.trans a.pr_eq,
    b.cnt_eq.trans a.cnt_eq, le_trans a.cid_le b.cid_le, ?_, ?_, ?_⟩
  · obtain ⟨t1, h1⟩ := a.log_ext
    obtain ⟨t2, h2⟩ := b.log_ext
    exact ⟨t1 ++ t2, by rw [h2, h1, List.append_assoc]⟩
  · intro c hdead hlt
    exact b.dead_stays c (a.dead_stays c hdead hlt) (lt_of_lt_of_le hlt a.cid_le)
  · intro e he
    rcases b.new_ev e he with h | h | h
    · exact a.new_ev e h
    · by_cases hc : connOf e.cid s = true
      · exact Or.inr (Or.inl hc)
      · rcases Nat.lt_or_ge e.cid s.nextCid with hlt | hge
        · exact absurd (a.dead_stays e.cid (Bool.not_eq_true _ ▸ by
            simpa using hc) hlt) (by simp [h])
        · exact Or.inr (Or.inr hge)
    · exact Or.inr (Or.inr (le_trans a.cid_le h))

/-- A live connection in `disconnectCid c s` was live in `s`. -/
theorem connOf_disconnectCid {c k : Nat} {s : GateState}
    (h : connOf k (disconnectCid c s) = true) : connOf k s = true := by
  simp only [connOf, disconnectCid, List.any_eq_true, List.mem_map] at h ⊢
  obtain ⟨x, ⟨sl, hsl, hx⟩, hp⟩ := h
  refine ⟨sl, hsl, ?_⟩
  by_cases hc : sl.cid = c
  · rw [if_pos hc] at hx
    subst hx
    simp at hp
  · rw [if_neg hc] at hx
    subst hx
    exact hp

theorem connOf_disconnectConn {o : Option Nat} {k : Nat} {s : GateState}
    (h : connOf k (disconnectConn o s) = true) : connOf k s = true := by
  cases o with
  | none => exact h
  | some c => exact connOf_disconnectCid h

theorem inv_disconnectCid (c : Nat) (s : GateState) :
    Inv s (disconnectCid c s) := by
  refine ⟨rfl, rfl, rfl, le_rfl, ⟨[], by simp⟩, ?_, ?_⟩
  · intro k hdead _
    cases hk : connOf k (disconnectCid c s) with
    | false => rfl
    | true => rw [connOf_disconnectCid hk] at hdead; exact hdead
  · intro e he
    exact Or.inl he

theorem inv_disconnectConn (o : Option Nat) (s : GateState) :
    Inv s (disconnectConn o s) := by
  cases o with
  | none => exact Inv.refl s
  | some c => exact inv_disconnectCid c s

theorem inv_destroyListener (lid : Nat) (s : GateState) :
    Inv s (destroyListener lid s) := by
  have base := inv_disconnectConn (s.lconn lid) s
  refine ⟨base.enabled_eq, base.pr_eq, base.cnt_eq, base.cid_le, ?_, ?_, ?_⟩
  · obtain ⟨t, ht⟩ := base.log_ext
    exact ⟨t, ht⟩
  · intro c hdead hlt
    exact base.dead_stays c hdead hlt
  · intro e he
    exact base.new_ev e he

theorem inv_callbackEntry {c : Nat} (lid pass : Nat) (s : GateState)
    (hlive : connOf c s = true) : Inv s (callbackEntry c lid pass s) := by
  have base := inv_disconnectConn (s.lconn lid) s
  refine ⟨base.enabled_eq, base.pr_eq, base.cnt_eq, base.cid_le, ?_, ?_, ?_⟩
  · refine ⟨[⟨c, lid, (disconnectConn (s.lconn lid) s).enabled,
      (disconnectConn (s.lconn lid) s).prResolved, pass⟩], ?_⟩
    show (disconnectConn (s.lconn lid) s).log ++ _ = _
    rw [disconnectConn_log]
  · intro k hdead hlt
    exact base.dead_stays k hdead hlt
  · intro e he
    show e ∈ s.log ∨ _
    have : e ∈ (disconnectConn (s.lconn lid) s).log ++
        [⟨c, lid, (disconnectConn (s.lconn lid) s).enabled,
          (disconnectConn (s.lconn lid) s).prResolved, pass⟩] := he
    rcases List.mem_append.mp this with h | h
    · rw [disconnectConn_log] at h
      exact Or.inl h
    · have he2 : e = ⟨c, lid, (disconnectConn (s.lconn lid) s).enabled,
        (disconnectConn (s.lconn lid) s).prResolved, pass⟩ :=
        List.mem_singleton.mp h
      rw [he2]
      exact Or.inr (Or.inl hlive)

/-- A live connection in `regState lid r s` was live in `s` or is the
freshly created one. -/
theorem connOf_regState {lid k : Nat} {r : Reaction} {s : GateState}
    (h : connOf k (regState lid r s) = true) :
    connOf k s = true ∨ k = s.nextCid := by
  rw [regState] at h
  have h2 := connOf_disconnectConn h
  simp only [connOf, List.any_eq_true, List.mem_append] at h2
  obtain ⟨sl, hsl | hsl, hp⟩ := h2
  · exact Or.inl (by
      simp only [connOf, List.any_eq_true]
      exact ⟨sl, hsl, hp⟩)
  · have hsl2 : sl = ⟨s.nextCid, lid, true, r⟩ := List.mem_singleton.mp hsl
    subst hsl2
    simp only [Slot.cid] at hp
    right
    simp only [Bool.and_eq_true, beq_iff_eq] at hp
    exact hp.1.symm

theorem inv_regState (lid : Nat) (r : Reaction) (s : GateState) :
    Inv s (regState lid r s) := by
  refine ⟨?_, ?_, ?_, ?_, ?_, ?_, ?_⟩
  · exact regState_enabled lid r s
  · exact regState_prResolved lid r s
  · show (regState lid r s).prSetCount = s.prSetCount
    simp [regState, disconnectConn_prSetCount]
  · rw [regState_nextCid]
    exact Nat.le_succ _
  · exact ⟨[], by rw [regState_log, List.append_nil]⟩
  · intro c hdead hlt
    cases hk : connOf c (regState lid r s) with
    | false => rfl
    | true =>
      rcases connOf_regState hk with h | h
      · rw [h] at hdead; exact hdead
      · omega
  · intro e he
    rw [regState_log] at he
    exact Or.inl he

theorem inv_nextPassBump (s : GateState) (k : Nat) :
    Inv s { s with nextPass := k } := by
  refine ⟨rfl, rfl, rfl, le_rfl, ⟨[], by simp⟩, fun _ h _ => h,
    fun _ he => Or.inl he⟩

/-- The slot found by a signal invocation, if connected, is a live
connection. -/
theorem connOf_of_find {c : Nat} {s : GateState} {sl : Slot}
    (hfind : s.slots.find? (fun sl => sl.cid == c) = some sl)
    (hc : sl.connected = true) : connOf sl.cid s = true := by
  have hmem : sl ∈ s.slots := List.mem_of_find?_eq_some hfind
  simp only [connOf, List.any_eq_true]
  exact ⟨sl, hmem, by simp [hc]⟩

/-- Every successful interpreter run satisfies the preservation
bundle. -/
theorem run1_inv : ∀ {n : Nat} {j : Job} {s s' : GateState},
    run1 n j s = some s' → Inv s s' := by
  intro n
  induction n with
  | zero => intro j s s' h; simp [run1_zero] at h
  | succ n ih =>
    intro j s s' h
    match j with
    | .react .act =>
      cases h; exact Inv.refl s
    | .react (.destroy k) =>
      cases h; exact inv_destroyListener k s
    | .react (.register k r) =>
      rw [run1_react_register] at h
      exact ih h
    | .reg lid r =>
      rw [run1_reg] at h
      by_cases he : (regState lid r s).enabled
      · rw [if_pos he] at h
        exact (inv_regState lid r s).trans
          ((inv_nextPassBump (regState lid r s) _).trans (ih h))
      · rw [if_neg he] at h
        cases h
        exact inv_regState lid r s
    | .fire pass snap =>
      match snap with
      | [] => cases h; exact Inv.refl s
      | c :: rest =>
        rw [run1_fire_cons] at h
        cases hf : s.slots.find? (fun sl => sl.cid == c) with
        | none =>
          rw [hf] at h
          exact ih h
        | some sl =>
          rw [hf] at h
          have h2 : (if sl.connected = true then
              (run1 n (.react sl.reaction)
                  (callbackEntry sl.cid sl.owner pass s)).bind
                (fun s1 => run1 n (.fire pass rest) s1)
            else run1 n (.fire pass rest) s) = some s' := h
          by_cases hc : sl.connected = true
          · rw [if_pos hc] at h2
            obtain ⟨s1, ha, hb⟩ := Option.bind_eq_some.mp h2
            exact (inv_callbackEntry sl.owner pass s
              (connOf_of_find hf hc)).trans ((ih ha).trans (ih hb))
          · rw [if_neg hc] at h2
            exact ih h2

/-! ### The effect of one whole signal invocation on plain-action slots -/

/-- The disconnected version of a slot. -/
def disSlot (sl : Slot) : Slot := { sl with connected := false }

@[simp] theorem disSlot_cid (sl : Slot) : (disSlot sl).cid = sl.cid := rfl

@[simp] theorem disSlot_owner (sl : Slot) : (disSlot sl).owner = sl.owner := rfl

@[simp] theorem disSlot_connected (sl : Slot) :
    (disSlot sl).connected = false := rfl

@[simp] theorem disSlot_reaction (sl : Slot) :
    (disSlot sl).reaction = sl.reaction := rfl

theorem disSlot_of_disconnected {sl : Slot} (h : sl.connected = false) :
    disSlot sl = sl := by
  cases sl with
  | mk c o conn r => cases conn <;> simp_all [disSlot]

theorem find?_append_none {α : Type} {p : α → Bool} {l₁ : List α}
    (l₂ : List α) (h : ∀ x ∈ l₁, p x = false) :
    (l₁ ++ l₂).find? p = l₂.find? p := by
  induction l₁ with
  | nil => rfl
  | cons a l ihl =>
    rw [List.cons_append, List.find?_cons, h a (List.mem_cons_self a l)]
    exact ihl fun x hx => h x (List.mem_cons_of_mem a hx)

theorem map_id_of_eq {α : Type} {l : List α} {f : α → α}
    (h : ∀ x ∈ l, f x = x) : l.map f = l := by
  induction l with
  | nil => rfl
  | cons a t iht =>
    rw [List.map_cons, h a (List.mem_cons_self a t),
      iht fun x hx => h x (List.mem_cons_of_mem a hx)]

/-- Walking a full-slot-list snapshot where every slot has a plain
action reaction: every slot still connected fires exactly once, in
connection order, observing the gate's current flags, and every slot is
disconnected afterwards; slots already disconnected (the `pre` part and
the disconnected members of `rest`) are skipped. -/
theorem fire_acts : ∀ (rest pre : List Slot) (s : GateState) (pass : Nat),
    s.slots = pre ++ rest →
    (∀ sl ∈ pre, sl.connected = false) →
    (∀ sl ∈ rest, sl.reaction = .act) →
    ((pre ++ rest).map Slot.cid).Nodup →
    (∀ sl ∈ rest, sl.connected = true → s.lconn sl.owner = some sl.cid) →
    RunsTo (.fire pass (rest.map Slot.cid)) s
      { s with slots := pre ++ rest.map disSlot,
               log := s.log ++ (rest.filter (fun sl => sl.connected)).map
                 (fun sl => ⟨sl.cid, sl.owner, s.enabled, s.prResolved, pass⟩) } := by
  intro rest
  induction rest with
  | nil =>
    intro pre s pass hslots hpre hact hnodup hlc
    have hpre2 : pre = s.slots := by simpa using hslots.symm
    subst hpre2
    simp only [List.map_nil, List.filter_nil, List.append_nil]
    exact runsTo_fire_nil pass s
  | cons sl rest ih =>
    intro pre s pass hslots hpre hact hnodup hlc
    have hdisj : sl.cid ∉ pre.map Slot.cid := by
      have h2 := hnodup
      simp only [List.map_append, List.map_cons] at h2
      exact fun hmem =>
        (List.disjoint_of_nodup_append h2) hmem (List.mem_cons_self _ _)
    have hrestcid : ∀ x ∈ rest, x.cid ≠ sl.cid := by
      have h2 := hnodup
      simp only [List.map_append, List.map_cons] at h2
      have h3 := (List.nodup_append.mp h2).2.1
      intro x hx heq
      exact (List.nodup_cons.mp h3).1 (heq ▸ List.mem_map_of_mem Slot.cid hx)
    have hfind : s.slots.find? (fun x => x.cid == sl.cid) = some sl := by
      rw [hslots, find?_append_none]
      · rw [List.find?_cons]
        simp
      · intro x hx
        simp only [beq_eq_false_iff_ne, ne_eq]
        intro heq
        exact hdisj (heq ▸ List.mem_map_of_mem Slot.cid hx)
    cases hcon : sl.connected with
    | false =>
      refine runsTo_fire_cons_skip_dis hfind hcon ?_
      have hstep := ih (pre ++ [sl]) s pass
        (by rw [hslots, List.append_assoc]; rfl)
        (by intro x hx
            rcases List.mem_append.mp hx with h | h
            · exact hpre x h
            · rw [List.mem_singleton.mp h]; exact hcon)
        (fun x hx => hact x (List.mem_cons_of_mem sl hx))
        (by simpa [List.append_assoc] using hnodup)
        (fun x hx hcx => hlc x (List.mem_cons_of_mem sl hx) hcx)
      have hT : (pre ++ [sl]) ++ rest.map disSlot =
          pre ++ (sl :: rest).map disSlot := by
        rw [List.map_cons, disSlot_of_disconnected hcon, List.append_assoc]
        rfl
      have hF : (rest.filter (fun x => x.connected)) =
          ((sl :: rest).filter (fun x => x.connected)) := by
        rw [List.filter_cons, hcon]
        simp
      rw [hT, hF] at hstep
      exact hstep
    | true =>
      have hlc_sl := hlc sl (List.mem_cons_self sl rest) hcon
      have hmapf : (pre ++ sl :: rest).map
          (fun x => if x.cid = sl.cid then { x with connected := false }
            else x) = pre ++ disSlot sl :: rest := by
        rw [List.map_append, List.map_cons]
        have h1 : pre.map (fun x => if x.cid = sl.cid then
            { x with connected := false } else x) = pre := by
          refine map_id_of_eq ?_
          intro x hx
          by_cases hcx : x.cid = sl.cid
          · rw [if_pos hcx]
            exact disSlot_of_disconnected (hpre x hx)
          · rw [if_neg hcx]
        have h2 : rest.map (fun x => if x.cid = sl.cid then
            { x with connected := false } else x) = rest := by
          refine map_id_of_eq ?_
          intro x hx
          rw [if_neg (hrestcid x hx)]
        rw [h1, h2, if_pos rfl]
        rfl
      have hE : callbackEntry sl.cid sl.owner pass s =
          { s with slots := pre ++ disSlot sl :: rest,
                   log := s.log ++
                     [⟨sl.cid, sl.owner, s.enabled, s.prResolved, pass⟩] } := by
        simp only [callbackEntry, hlc_sl, disconnectConn, disconnectCid, hslots,
          hmapf]
      refine runsTo_fire_cons_conn hfind hcon
        { s with slots := pre ++ disSlot sl :: rest,
                 log := s.log ++
                   [⟨sl.cid, sl.owner, s.enabled, s.prResolved, pass⟩] }
        ?_ ?_
      · rw [hact sl (List.mem_cons_self sl rest), hE]
        exact runsTo_react_act _
      · have hstep := ih (pre ++ [disSlot sl])
          { s with slots := pre ++ disSlot sl :: rest,
                   log := s.log ++
                     [⟨sl.cid, sl.owner, s.enabled, s.prResolved, pass⟩] } pass
          (by rw [List.append_assoc]; rfl)
          (by intro x hx
              rcases List.mem_append.mp hx with h | h
              · exact hpre x h
              · rw [List.mem_singleton.mp h]; rfl)
          (fun x hx => hact x (List.mem_cons_of_mem sl hx))
          (by simpa [List.append_assoc] using hnodup)
          (fun x hx hcx => hlc x (List.mem_cons_of_mem sl hx) hcx)
        have hT : (pre ++ [disSlot sl]) ++ rest.map disSlot =
            pre ++ (sl :: rest).map disSlot := by
          rw [List.map_cons, List.append_assoc]
          rfl
        have hF : (s.log ++ [⟨sl.cid, sl.owner, s.enabled, s.prResolved,
            pass⟩]) ++ (rest.filter (fun x => x.connected)).map
              (fun x => ⟨x.cid, x.owner, s.enabled, s.prResolved, pass⟩) =
            s.log ++ ((sl :: rest).filter (fun x => x.connected)).map
              (fun x => ⟨x.cid, x.owner, s.enabled, s.prResolved, pass⟩) := by
          rw [List.filter_cons, hcon, List.append_assoc]
          rfl
        rw [hT] at hstep
        rw [← hF]
        exact hstep

/-! ### Well-formed plain-action states and the registration phases -/

/-- Well-formedness of a gate state whose listeners are plain actions:
every slot's reaction is `.act`; connection ids are pairwise distinct
and below the fresh counter; a connected slot is exactly the connection
its owner's `_conn` holds; and every held connection id is below the
fresh counter. -/
def Wf (s : GateState) : Prop :=
  (∀ sl ∈ s.slots, sl.reaction = .act) ∧
  (s.slots.map Slot.cid).Nodup ∧
  (∀ sl ∈ s.slots, sl.cid < s.nextCid) ∧
  (∀ sl ∈ s.slots, sl.connected = true → s.lconn sl.owner = some sl.cid) ∧
  (∀ l c, s.lconn l = some c → c < s.nextCid)

theorem wf_init : Wf initState := by
  refine ⟨?_, ?_, ?_, ?_, ?_⟩ <;> simp [initState]

/-- Registration of a fresh plain-action listener (no previous
connection to replace). -/
def regActFresh (s : GateState) (lid : Nat) : GateState :=
  { s with slots := s.slots ++ [⟨s.nextCid, lid, true, .act⟩],
           lconn := fun l => if l = lid then some s.nextCid else s.lconn l,
           nextCid := s.nextCid + 1 }

theorem regState_act_fresh {lid : Nat} {s : GateState}
    (h : s.lconn lid = none) : regState lid .act s = regActFresh s lid := by
  rw [regState, h]
  rfl

@[simp] theorem regActFresh_enabled (s : GateState) (lid : Nat) :
    (regActFresh s lid).enabled = s.enabled := rfl

@[simp] theorem regActFresh_prResolved (s : GateState) (lid : Nat) :
    (regActFresh s lid).prResolved = s.prResolved := rfl

@[simp] theorem regActFresh_prSetCount (s : GateState) (lid : Nat) :
    (regActFresh s lid).prSetCount = s.prSetCount := rfl

@[simp] theorem regActFresh_log (s : GateState) (lid : Nat) :
    (regActFresh s lid).log = s.log := rfl

@[simp] theorem regActFresh_nextPass (s : GateState) (lid : Nat) :
    (regActFresh s lid).nextPass = s.nextPass := rfl

theorem wf_regActFresh {s : GateState} {lid : Nat} (hwf : Wf s)
    (h : s.lconn lid = none) : Wf (regActFresh s lid) := by
  obtain ⟨h1, h2, h3, h4, h5⟩ := hwf
  have hmem : ∀ sl : Slot, sl ∈ (regActFresh s lid).slots →
      sl ∈ s.slots ∨ sl = ⟨s.nextCid, lid, true, .act⟩ := by
    intro sl hsl
    have hsl2 : sl ∈ s.slots ++ [(⟨s.nextCid, lid, true, .act⟩ : Slot)] := hsl
    rcases List.mem_append.mp hsl2 with hm | hm
    · exact Or.inl hm
    · exact Or.inr (List.mem_singleton.mp hm)
  refine ⟨?_, ?_, ?_, ?_, ?_⟩
  · intro sl hsl
    rcases hmem sl hsl with hm | hm
    · exact h1 sl hm
    · rw [hm]
  · show ((s.slots ++ [(⟨s.nextCid, lid, true, .act⟩ : Slot)]).map
      Slot.cid).Nodup
    rw [List.map_append]
    refine List.Nodup.append h2 (by simp) ?_
    intro x hx hy
    simp only [List.map_cons, List.map_nil, List.mem_singleton] at hy
    obtain ⟨sl, hsl, rfl⟩ := List.mem_map.mp hx
    exact absurd hy (Nat.ne_of_lt (h3 sl hsl))
  · intro sl hsl
    show sl.cid < s.nextCid + 1
    rcases hmem sl hsl with hm | hm
    · exact Nat.lt_succ_of_lt (h3 sl hm)
    · rw [hm]
      exact Nat.lt_succ_self _
  · intro sl hsl hc
    show (if sl.owner = lid then some s.nextCid else s.lconn sl.owner) =
      some sl.cid
    rcases hmem sl hsl with hm | hm
    · have hne : sl.owner ≠ lid := by
        intro heq
        have hx := h4 sl hm hc
        rw [heq, h] at hx
        exact Option.noConfusion hx
      rw [if_neg hne]
      exact h4 sl hm hc
    · rw [hm]
      simp
  · intro l c hl
    show c < s.nextCid + 1
    by_cases he : l = lid
    · have hl2 : (if l = lid then some s.nextCid else s.lconn l) = some c := hl
      rw [if_pos he] at hl2
      cases hl2
      exact Nat.lt_succ_self _
    · have hl2 : (if l = lid then some s.nextCid else s.lconn l) = some c := hl
      rw [if_neg he] at hl2
      exact Nat.lt_succ_of_lt (h5 l c hl2)

/-- Register a list of fresh plain-action listeners in order. -/
def regFold : GateState → List Nat → GateState
  | s, [] => s
  | s, l :: ls => regFold (regActFresh s l) ls

/-- Slots created by registering `ls` starting at connection id `c0`:
connected plain-action slots with consecutive ids. -/
def mkConSlots : Nat → List Nat → List Slot
  | _, [] => []
  | c0, l :: ls => ⟨c0, l, true, .act⟩ :: mkConSlots (c0 + 1) ls

theorem mkConSlots_owner (c0 : Nat) (ls : List Nat) :
    (mkConSlots c0 ls).map Slot.owner = ls := by
  induction ls generalizing c0 with
  | nil => rfl
  | cons l t ih => simp [mkConSlots, ih]

theorem mkConSlots_cid (c0 : Nat) (ls : List Nat) :
    (mkConSlots c0 ls).map Slot.cid = List.range' c0 ls.length := by
  induction ls generalizing c0 with
  | nil => rfl
  | cons l t ih => simp [mkConSlots, List.range'_succ, ih]

theorem mkConSlots_append (c0 : Nat) (xs ys : List Nat) :
    mkConSlots c0 (xs ++ ys) =
      mkConSlots c0 xs ++ mkConSlots (c0 + xs.length) ys := by
  induction xs generalizing c0 with
  | nil => simp [mkConSlots]
  | cons x t ih =>
    show (⟨c0, x, true, .act⟩ : Slot) :: mkConSlots (c0 + 1) (t ++ ys) =
      (⟨c0, x, true, .act⟩ : Slot) :: mkConSlots (c0 + 1) t ++
        mkConSlots (c0 + (x :: t).length) ys
    rw [ih (c0 + 1), List.length_cons,
      show c0 + (t.length + 1) = c0 + 1 + t.length from by omega,
      List.cons_append]

theorem mkConSlots_mem {c0 : Nat} {ls : List Nat} {sl : Slot}
    (h : sl ∈ mkConSlots c0 ls) :
    sl.connected = true ∧ sl.reaction = .act ∧
      c0 ≤ sl.cid ∧ sl.cid < c0 + ls.length := by
  induction ls generalizing c0 with
  | nil => simp [mkConSlots] at h
  | cons l t ih =>
    rcases List.mem_cons.mp h with hm | hm
    · rw [hm]
      refine ⟨rfl, rfl, le_rfl, by simp⟩
    · obtain ⟨a, b, c, d⟩ := ih hm
      refine ⟨a, b, le_trans (Nat.le_succ c0) c, ?_⟩
      simp only [List.length_cons]
      omega

theorem mkConSlots_filter_connected (c0 : Nat) (ls : List Nat) :
    (mkConSlots c0 ls).filter (fun sl => sl.connected) = mkConSlots c0 ls := by
  induction ls generalizing c0 with
  | nil => rfl
  | cons l t ih => simp [mkConSlots, List.filter_cons, ih]

theorem regFold_slots (todo : List Nat) : ∀ (s : GateState),
    (regFold s todo).slots = s.slots ++ mkConSlots s.nextCid todo := by
  induction todo with
  | nil => intro s; simp [regFold, mkConSlots]
  | cons l t ih =>
    intro s
    show (regFold (regActFresh s l) t).slots = _
    rw [ih (regActFresh s l)]
    show (s.slots ++ [⟨s.nextCid, l, true, .act⟩]) ++
      mkConSlots (s.nextCid + 1) t = _
    rw [List.append_assoc]
    rfl

theorem regFold_nextCid (todo : List Nat) : ∀ (s : GateState),
    (regFold s todo).nextCid = s.nextCid + todo.length := by
  induction todo with
  | nil => intro s; simp [regFold]
  | cons l t ih =>
    intro s
    show (regFold (regActFresh s l) t).nextCid = _
    rw [ih (regActFresh s l)]
    show s.nextCid + 1 + t.length = _
    simp only [List.length_cons]
    omega

theorem regFold_enabled (todo : List Nat) : ∀ (s : GateState),
    (regFold s todo).enabled = s.enabled := by
  induction todo with
  | nil => intro s; rfl
  | cons l t ih => intro s; exact (ih (regActFresh s l)).trans rfl

theorem regFold_prResolved (todo : List Nat) : ∀ (s : GateState),
    (regFold s todo).prResolved = s.prResolved := by
  induction todo with
  | nil => intro s; rfl
  | cons l t ih => intro s; exact (ih (regActFresh s l)).trans rfl

theorem regFold_prSetCount (todo : List Nat) : ∀ (s : GateState),
    (regFold s todo).prSetCount = s.prSetCount := by
  induction todo with
  | nil => intro s; rfl
  | cons l t ih => intro s; exact (ih (regActFresh s l)).trans rfl

theorem regFold_log (todo : List Nat) : ∀ (s : GateState),
    (regFold s todo).log = s.log := by
  induction todo with
  | nil => intro s; rfl
  | cons l t ih => intro s; exact (ih (regActFresh s l)).trans rfl

theorem regFold_nextPass (todo : List Nat) : ∀ (s : GateState),
    (regFold s todo).nextPass = s.nextPass := by
  induction todo with
  | nil => intro s; rfl
  | cons l t ih => intro s; exact (ih (regActFresh s l)).trans rfl

theorem wf_regFold {todo : List Nat} : ∀ {s : GateState}, Wf s →
    todo.Nodup → (∀ l ∈ todo, s.lconn l = none) → Wf (regFold s todo) := by
  induction todo with
  | nil => intro s hwf _ _; exact hwf
  | cons l t ih =>
    intro s hwf hnd hfresh
    refine ih (wf_regActFresh hwf (hfresh l (List.mem_cons_self l t)))
      (List.nodup_cons.mp hnd).2 ?_
    intro x hx
    show (if x = l then some s.nextCid else s.lconn x) = none
    have hne : x ≠ l := by
      intro heq
      subst heq
      exact (List.nodup_cons.mp hnd).1 hx
    rw [if_neg hne, hfresh x (List.mem_cons_of_mem l hx)]

/-- Registering a list of fresh plain-action listeners on a disabled
gate succeeds and performs no firing. -/
theorem regFold_run : ∀ (todo : List Nat) (s : GateState),
    s.enabled = false → todo.Nodup → (∀ l ∈ todo, s.lconn l = none) →
    OpsRunTo (todo.map fun l => Op.register l .act) s (regFold s todo) := by
  intro todo
  induction todo with
  | nil => intro s _ _ _; exact opsRunTo_nil s
  | cons l t ih =>
    intro s hen hnd hfresh
    have h2 := ih (regActFresh s l) (by rw [regActFresh_enabled, hen])
      (List.nodup_cons.mp hnd).2 (by
        intro x hx
        show (if x = l then some s.nextCid else s.lconn x) = none
        have hne : x ≠ l := by
          intro heq
          subst heq
          exact (List.nodup_cons.mp hnd).1 hx
        rw [if_neg hne, hfresh x (List.mem_cons_of_mem l hx)])
    have h1 : RunsTo (.reg l .act) s (regActFresh s l) := by
      rw [← regState_act_fresh (hfresh l (List.mem_cons_self l t))]
      exact runsTo_reg_disabled (by rw [regState_enabled]; exact hen)
    exact opsRunTo_cons (opRunsTo_register h1) h2

/-- One whole signal invocation from a well-formed state: every
connected slot fires once, in connection order, observing the gate's
current flags, and every slot ends disconnected. -/
theorem fire_all {s : GateState} (pass : Nat) (hwf : Wf s) :
    RunsTo (.fire pass (s.slots.map Slot.cid)) s
      { s with slots := s.slots.map disSlot,
               log := s.log ++ (s.slots.filter (fun sl => sl.connected)).map
                 (fun sl => ⟨sl.cid, sl.owner, s.enabled, s.prResolved,
                   pass⟩) } := by
  have h := fire_acts s.slots [] s pass (by simp) (by simp) hwf.1
    (by simpa using hwf.2.1) (fun sl hm hc => hwf.2.2.2.1 sl hm hc)
  simpa using h

/-! ### Canonical runs: register, enable, register late -/

theorem filter_connected_nil {l : List Slot}
    (h : ∀ sl ∈ l, sl.connected = false) :
    l.filter (fun sl => sl.connected) = [] := by
  rw [List.filter_eq_nil_iff]
  intro sl hsl
  simp [h sl hsl]

theorem map_disSlot_id {l : List Slot} (h : ∀ sl ∈ l, sl.connected = false) :
    l.map disSlot = l :=
  map_id_of_eq fun sl hsl => disSlot_of_disconnected (h sl hsl)

theorem map_cid_map_disSlot (l : List Slot) :
    (l.map disSlot).map Slot.cid = l.map Slot.cid := by
  rw [List.map_map]
  exact List.map_congr_left fun sl _ => rfl

/-- `Wf` survives disconnecting every slot and replacing the log. -/
theorem wf_allDis {s : GateState} (hwf : Wf s) (L : List Ev) :
    Wf { s with slots := s.slots.map disSlot, log := L } := by
  obtain ⟨h1, h2, h3, h4, h5⟩ := hwf
  refine ⟨?_, ?_, ?_, ?_, ?_⟩
  · intro sl hsl
    obtain ⟨x, hx, rfl⟩ := List.mem_map.mp hsl
    exact h1 x hx
  · show ((s.slots.map disSlot).map Slot.cid).Nodup
    rw [map_cid_map_disSlot]
    exact h2
  · intro sl hsl
    obtain ⟨x, hx, rfl⟩ := List.mem_map.mp hsl
    exact h3 x hx
  · intro sl hsl hc
    obtain ⟨x, hx, rfl⟩ := List.mem_map.mp hsl
    exact absurd hc (by simp)
  · exact h5

/-- The full effect of the spec-modelled transition on a gate built by
registering the distinct plain-action listeners `pre` on a fresh gate:
the run succeeds, the gate ends enabled with the promise resolved
exactly once, one signal invocation (pass 0) has happened, every
listener has fired — in registration order, observing
`enabled = true` and a resolved promise — and every slot ends
disconnected. -/
theorem pre_enable_run (pre : List Nat) (hnd : pre.Nodup) :
    ∃ s', OpsRunTo (pre.map (fun l => Op.register l .act) ++ [Op.enable])
        initState s' ∧
      s'.enabled = true ∧ s'.prResolved = true ∧ s'.prSetCount = 1 ∧
      s'.slots = (mkConSlots 0 pre).map disSlot ∧
      s'.lconn = (regFold initState pre).lconn ∧
      s'.nextCid = pre.length ∧ s'.nextPass = 1 ∧
      s'.log = (mkConSlots 0 pre).map
        (fun sl => ⟨sl.cid, sl.owner, true, true, 0⟩) ∧
      Wf s' := by
  have hfresh : ∀ l ∈ pre, initState.lconn l = none := by
    intro l _
    rfl
  have hreg := regFold_run pre initState rfl hnd hfresh
  have hwfE : Wf (regFold initState pre) := wf_regFold wf_init hnd hfresh
  have hEslots : (regFold initState pre).slots = mkConSlots 0 pre := by
    rw [regFold_slots]
    show ([] : List Slot) ++ mkConSlots 0 pre = _
    rw [List.nil_append]
  have hEcnt : (regFold initState pre).prSetCount = 0 := regFold_prSetCount pre _
  have hEnp : (regFold initState pre).nextPass = 0 := regFold_nextPass pre _
  have hEnc : (regFold initState pre).nextCid = pre.length := by
    rw [regFold_nextCid]
    show 0 + pre.length = _
    omega
  have hElog : (regFold initState pre).log = [] := regFold_log pre _
  -- the state the broadcast walks, after steps (1) and (2) of enable and
  -- the pass-id bump of the invocation
  have hwfF : Wf { enabledPre (regFold initState pre) with
      nextPass := (enabledPre (regFold initState pre)).nextPass + 1 } := hwfE
  have hfire := fire_all (enabledPre (regFold initState pre)).nextPass hwfF
  refine ⟨_, opsRunTo_append hreg
    (opsRunTo_cons (opRunsTo_enable hfire) (opsRunTo_nil _)), ?_, ?_, ?_,
    ?_, ?_, ?_, ?_, ?_, ?_⟩
  · rfl
  · rfl
  · show (regFold initState pre).prSetCount + 1 = 1
    rw [hEcnt]
  · show (regFold initState pre).slots.map disSlot = _
    rw [hEslots]
  · rfl
  · show (regFold initState pre).nextCid = _
    exact hEnc
  · show (regFold initState pre).nextPass + 1 = 1
    rw [hEnp]
  · show (regFold initState pre).log ++
      ((regFold initState pre).slots.filter (fun sl => sl.connected)).map
        (fun sl => ⟨sl.cid, sl.owner, true, true,
          (regFold initState pre).nextPass⟩) = _
    rw [hElog, hEslots, hEnp, mkConSlots_filter_connected, List.nil_append]
  · exact wf_allDis hwfF _

/-- Registering one fresh plain-action listener on an enabled gate whose
slots are all already disconnected: the registration succeeds and the
new listener fires synchronously inside the call (one fresh signal
invocation), ending disconnected as well. -/
theorem post_step {s : GateState} {lid : Nat} (hen : s.enabled = true)
    (hwf : Wf s) (hdis : ∀ sl ∈ s.slots, sl.connected = false)
    (hlc : s.lconn lid = none) :
    ∃ t, RunsTo (.reg lid .act) s t ∧ t.enabled = true ∧
      t.prResolved = s.prResolved ∧ t.prSetCount = s.prSetCount ∧
      t.slots = s.slots ++ [⟨s.nextCid, lid, false, .act⟩] ∧
      t.lconn = (fun l => if l = lid then some s.nextCid else s.lconn l) ∧
      t.nextCid = s.nextCid + 1 ∧ t.nextPass = s.nextPass + 1 ∧
      t.log = s.log ++ [⟨s.nextCid, lid, true, s.prResolved, s.nextPass⟩] ∧
      Wf t ∧ (∀ sl ∈ t.slots, sl.connected = false) := by
  have hwfA : Wf (regActFresh s lid) := wf_regActFresh hwf hlc
  have hwfG : Wf { regActFresh s lid with
      nextPass := (regActFresh s lid).nextPass + 1 } := hwfA
  have hfire := fire_all (regActFresh s lid).nextPass hwfG
  have hfilter : ((s.slots ++ [(⟨s.nextCid, lid, true, .act⟩ : Slot)]).filter
      (fun sl => sl.connected)) = [⟨s.nextCid, lid, true, .act⟩] := by
    rw [List.filter_append, filter_connected_nil hdis, List.nil_append]
    rfl
  have hslots2 : (s.slots ++ [(⟨s.nextCid, lid, true, .act⟩ : Slot)]).map
      disSlot = s.slots ++ [⟨s.nextCid, lid, false, .act⟩] := by
    rw [List.map_append, map_disSlot_id hdis]
    rfl
  have hrr := runsTo_reg_enabled
    (show (regState lid .act s).enabled = true by
      rw [regState_enabled]; exact hen)
    (by rw [regState_act_fresh hlc]; exact hfire)
  refine ⟨_, hrr, ?_, ?_, ?_, ?_, ?_, ?_, ?_, ?_, ?_, ?_⟩
  · exact hen
  · rfl
  · rfl
  · show (regActFresh s lid).slots.map disSlot = _
    exact hslots2
  · rfl
  · rfl
  · rfl
  · show (regActFresh s lid).log ++
      ((regActFresh s lid).slots.filter (fun sl => sl.connected)).map
        (fun sl => ⟨sl.cid, sl.owner, (regActFresh s lid).enabled,
          (regActFresh s lid).prResolved, (regActFresh s lid).nextPass⟩) = _
    show s.log ++ ((s.slots ++
      [(⟨s.nextCid, lid, true, .act⟩ : Slot)]).filter
        (fun sl => sl.connected)).map
        (fun sl => ⟨sl.cid, sl.owner, s.enabled, s.prResolved,
          s.nextPass⟩) = _
    rw [hfilter, hen]
    rfl
  · have h := wf_allDis hwfG (((regActFresh s lid).slots.filter
      (fun sl => sl.connected)).map
        (fun sl => ⟨sl.cid, sl.owner, (regActFresh s lid).enabled,
          (regActFresh s lid).prResolved, (regActFresh s lid).nextPass⟩))
    exact h
  · intro sl hsl
    have hsl2 : sl ∈ (regActFresh s lid).slots.map disSlot := hsl
    obtain ⟨x, _, rfl⟩ := List.mem_map.mp hsl2
    rfl

/-- Registering a list of distinct fresh plain-action listeners on an
enabled all-fired gate: each fires synchronously inside its own
registration call, in order. -/
theorem post_phase : ∀ (post : List Nat) (s : GateState),
    s.enabled = true → Wf s → (∀ sl ∈ s.slots, sl.connected = false) →
    post.Nodup → (∀ l ∈ post, s.lconn l = none) →
    ∃ s', OpsRunTo (post.map fun l => Op.register l .act) s s' ∧
      s'.log.map Ev.lid = s.log.map Ev.lid ++ post ∧
      s'.enabled = true ∧ s'.prResolved = s.prResolved ∧
      s'.prSetCount = s.prSetCount := by
  intro post
  induction post with
  | nil =>
    intro s hen _ _ _ _
    exact ⟨s, opsRunTo_nil s, by simp, hen, rfl, rfl⟩
  | cons l t ih =>
    intro s hen hwf hdis hnd hfresh
    obtain ⟨u, hrun, huen, hupr, hucnt, huslots, hulconn, hunc, hunp, hulog,
      huwf, hudis⟩ := post_step hen hwf hdis (hfresh l (List.mem_cons_self l t))
    obtain ⟨s', hrun2, hlog2, hen2, hpr2, hcnt2⟩ := ih u huen huwf hudis
      (List.nodup_cons.mp hnd).2 (by
        intro x hx
        rw [hulconn]
        have hne : x ≠ l := by
          intro heq
          subst heq
          exact (List.nodup_cons.mp hnd).1 hx
        show (if x = l then some s.nextCid else s.lconn x) = none
        rw [if_neg hne, hfresh x (List.mem_cons_of_mem l hx)])
    refine ⟨s', opsRunTo_cons (opRunsTo_register hrun) hrun2, ?_, hen2,
      hpr2.trans hupr, hcnt2.trans hucnt⟩
    rw [hlog2, hulog]
    simp

theorem regFold_lconn_not_mem (todo : List Nat) : ∀ (s : GateState)
    (l : Nat), l ∉ todo → (regFold s todo).lconn l = s.lconn l := by
  induction todo with
  | nil => intro s l _; rfl
  | cons x t ih =>
    intro s l hl
    show (regFold (regActFresh s x) t).lconn l = s.lconn l
    rw [ih (regActFresh s x) l (fun hm => hl (List.mem_cons_of_mem x hm))]
    show (if l = x then some s.nextCid else s.lconn l) = s.lconn l
    have hne : l ≠ x := by
      intro heq
      subst heq
      exact hl (List.mem_cons_self l t)
    rw [if_neg hne]

theorem mkConSlots_ev_lid (p : Nat) (a b : Bool) :
    ∀ (c0 : Nat) (ls : List Nat),
    ((mkConSlots c0 ls).map
      (fun sl => (⟨sl.cid, sl.owner, a, b, p⟩ : Ev))).map Ev.lid = ls := by
  intro c0 ls
  induction ls generalizing c0 with
  | nil => rfl
  | cons l t ih => simp [mkConSlots, ih]

theorem mkConSlots_ev_view (p : Nat) (a b : Bool) :
    ∀ (c0 : Nat) (ls : List Nat),
    ((mkConSlots c0 ls).map
      (fun sl => (⟨sl.cid, sl.owner, a, b, p⟩ : Ev))).map
        (fun e => (e.lid, e.enabledAt, e.prAt, e.passId)) =
      ls.map (fun l => (l, a, b, p)) := by
  intro c0 ls
  induction ls generalizing c0 with
  | nil => rfl
  | cons l t ih => simp [mkConSlots, ih]

/-! ### Per-operation effect on the gate flags -/

theorem destroyListener_enabled (lid : Nat) (s : GateState) :
    (destroyListener lid s).enabled = s.enabled := by
  show (disconnectConn (s.lconn lid) s).enabled = s.enabled
  exact disconnectConn_enabled _ _

theorem destroyListener_prResolved (lid : Nat) (s : GateState) :
    (destroyListener lid s).prResolved = s.prResolved := by
  show (disconnectConn (s.lconn lid) s).prResolved = s.prResolved
  exact disconnectConn_prResolved _ _

theorem runOp_flags {fuel : Nat} {op : Op} {s s' : GateState}
    (h : runOp fuel op s = some s') :
    (op = Op.enable → s'.enabled = true ∧ s'.prResolved = true) ∧
    (op ≠ Op.enable → s'.enabled = s.enabled ∧
      s'.prResolved = s.prResolved) := by
  cases op with
  | register lid r =>
    have hinv := run1_inv (show run1 fuel (.reg lid r) s = some s' from h)
    exact ⟨fun hc => Op.noConfusion hc, fun _ =>
      ⟨hinv.enabled_eq, hinv.pr_eq⟩⟩
  | enable =>
    have hinv := run1_inv (show run1 fuel
      (.fire (enabledPre s).nextPass ((enabledPre s).slots.map Slot.cid))
      { enabledPre s with nextPass := (enabledPre s).nextPass + 1 } = some s'
      from h)
    exact ⟨fun _ => ⟨hinv.enabled_eq, hinv.pr_eq⟩, fun hc => absurd rfl hc⟩
  | destroy lid =>
    cases h
    exact ⟨fun hc => Op.noConfusion hc, fun _ =>
      ⟨destroyListener_enabled lid s, destroyListener_prResolved lid s⟩⟩
  | await =>
    cases h
    exact ⟨fun hc => Op.noConfusion hc, fun _ => ⟨rfl, rfl⟩⟩

/-- Along any operation sequence: the enabled flag is true exactly when
the flag was already true or the transition appears in the sequence, and
"promise resolved iff enabled" is preserved. -/
theorem runOps_flags : ∀ (ops : List Op) (fuel : Nat) {s s' : GateState},
    runOps fuel ops s = some s' →
    (s'.enabled = true ↔ (s.enabled = true ∨ Op.enable ∈ ops)) ∧
    (s.prResolved = s.enabled → s'.prResolved = s'.enabled) := by
  intro ops
  induction ops with
  | nil =>
    intro fuel s s' h
    cases h
    simp
  | cons op t ih =>
    intro fuel s s' h
    obtain ⟨s1, h1, h2⟩ := Option.bind_eq_some.mp h
    have hop := runOp_flags h1
    obtain ⟨hiff, hpr⟩ := ih fuel h2
    by_cases he : op = Op.enable
    · obtain ⟨hen1, hpr1⟩ := hop.1 he
      subst he
      constructor
      · rw [hiff, hen1]
        simp
      · intro _
        exact hpr (by rw [hen1, hpr1])
    · obtain ⟨hen1, hpr1⟩ := hop.2 he
      constructor
      · rw [hiff, hen1]
        constructor
        · rintro (ha | hb)
          · exact Or.inl ha
          · exact Or.inr (List.mem_cons_of_mem op hb)
        · rintro (ha | hb)
          · exact Or.inl ha
          · rcases List.mem_cons.mp hb with hc | hc
            · exact absurd hc.symm he
            · exact Or.inr hc
      · intro hs
        exact hpr (by rw [hen1, hpr1]; exact hs)

/-! ### Claim theorems -/

/-- C1.  Exactly-once delivery: for any distinct observers `pre`
registered before the transition and `post` registered after it, the
whole run succeeds, every one of the `pre ++ post` observers' reactions
is invoked exactly once (the log is exactly `pre ++ post`), and no
reaction is invoked more than once. -/
theorem exactly_once_delivery (pre post : List Nat)
    (hnd : (pre ++ post).Nodup) :
    ∃ s', OpsRunTo (pre.map (fun l => Op.register l .act) ++ [Op.enable] ++
        post.map (fun l => Op.register l .act)) initState s' ∧
      s'.log.map Ev.lid = pre ++ post ∧
      (∀ l, (s'.log.map Ev.lid).count l =
        if l ∈ pre ++ post then 1 else 0) := by
  have hndp : pre.Nodup := (List.nodup_append.mp hnd).1
  have hndq : post.Nodup := (List.nodup_append.mp hnd).2.1
  have hdisj : ∀ l ∈ post, l ∉ pre := by
    intro l hl hp
    exact (List.nodup_append.mp hnd).2.2 hp hl
  obtain ⟨s1, hrun1, hen1, hpr1, hcnt1, hslots1, hlconn1, hnc1, hnp1, hlog1,
    hwf1⟩ := pre_enable_run pre hndp
  have hdis1 : ∀ sl ∈ s1.slots, sl.connected = false := by
    intro sl hsl
    rw [hslots1] at hsl
    obtain ⟨x, _, rfl⟩ := List.mem_map.mp hsl
    rfl
  obtain ⟨s', hrun2, hlog2, hen2, hpr2, hcnt2⟩ := post_phase post s1 hen1 hwf1
    hdis1 hndq (by
      intro l hl
      rw [hlconn1, regFold_lconn_not_mem pre initState l (hdisj l hl)]
      rfl)
  have hlids1 : s1.log.map Ev.lid = pre := by
    rw [hlog1]
    exact mkConSlots_ev_lid 0 true true 0 pre
  have hlog : s'.log.map Ev.lid = pre ++ post := by
    rw [hlog2, hlids1]
  refine ⟨s', opsRunTo_append hrun1 hrun2, hlog, ?_⟩
  intro l
  rw [hlog]
  by_cases hm : l ∈ pre ++ post
  · rw [if_pos hm]
    exact List.count_eq_one_of_mem hnd hm
  · rw [if_neg hm]
    exact List.count_eq_zero_of_not_mem hm

/-- C2.  The transition sets `enabled`, resolves the shared promise
(both steps are modelled in that order inside `enableOp`, per the spec)
and then invokes the broadcaster exactly once (`nextPass` goes from 0
to 1 and every delivery carries pass id 0); every observer registered
before the transition fires during that single invocation, in
registration order, and each reaction already observes `enabled = true`
and a resolved promise. -/
theorem transition_effect_order (pre : List Nat) (hnd : pre.Nodup) :
    ∃ s', OpsRunTo (pre.map (fun l => Op.register l .act) ++ [Op.enable])
        initState s' ∧
      s'.enabled = true ∧ s'.prResolved = true ∧ s'.prSetCount = 1 ∧
      s'.nextPass = 1 ∧
      s'.log.map (fun e => (e.lid, e.enabledAt, e.prAt, e.passId)) =
        pre.map (fun l => (l, true, true, 0)) := by
  obtain ⟨s', hrun, hen, hpr, hcnt, hslots, hlconn, hnc, hnp, hlog, hwf⟩ :=
    pre_enable_run pre hnd
  refine ⟨s', hrun, hen, hpr, hcnt, hnp, ?_⟩
  rw [hlog]
  exact mkConSlots_ev_view 0 true true 0 pre

/-- C5.  Invariants: starting from a freshly constructed gate, after any
successful operation sequence the enabled flag is true iff the
transition operation occurs in the sequence, and the shared promise is
resolved iff the flag is true; moreover every observer connected at the
moment of the transition is notified before the transition operation
returns. -/
theorem gate_state_invariants :
    (∀ (ops : List Op) (fuel : Nat) (s' : GateState),
      runOps fuel ops initState = some s' →
      ((s'.enabled = true ↔ Op.enable ∈ ops) ∧
        s'.prResolved = s'.enabled)) ∧
    (∀ pre : List Nat, pre.Nodup →
      ∃ s', OpsRunTo (pre.map (fun l => Op.register l .act) ++ [Op.enable])
          initState s' ∧ ∀ l ∈ pre, l ∈ s'.log.map Ev.lid) := by
  constructor
  · intro ops fuel s' h
    obtain ⟨hiff, hpr⟩ := runOps_flags ops fuel h
    constructor
    · rw [hiff]
      show false = true ∨ _ ↔ _
      simp
    · exact hpr rfl
  · intro pre hnd
    obtain ⟨s', hrun, hen, hpr, hcnt, hslots, hlconn, hnc, hnp, hlog, hwf⟩ :=
      pre_enable_run pre hnd
    refine ⟨s', hrun, ?_⟩
    intro l hl
    rw [hlog, mkConSlots_ev_lid 0 true true 0 pre]
    exact hl

/-- C3.  Immediate fire on late registration: registering a fresh
plain-action observer on an already-enabled gate (all earlier slots have
fired and disconnected) always succeeds, and the observer's reaction —
which sees `enabled = true` — is logged before the registration call
returns. -/
theorem late_registration_immediate_fire {s : GateState} {lid : Nat}
    (hen : s.enabled = true) (hwf : Wf s)
    (hdis : ∀ sl ∈ s.slots, sl.connected = false)
    (hlc : s.lconn lid = none) :
    ∃ t, RunsTo (.reg lid .act) s t ∧
      t.log = s.log ++ [⟨s.nextCid, lid, true, s.prResolved, s.nextPass⟩] := by
  obtain ⟨t, hrun, _, _, _, _, _, _, _, hlog, _, _⟩ :=
    post_step hen hwf hdis hlc
  exact ⟨t, hrun, hlog⟩

/-- C9.  Registering a fresh plain-action observer on an enabled gate
invokes the whole signal, not only the new slot: every listener still
connected at that moment fires during the registration call, in
connection order, before the registrant, and afterwards every slot is
disconnected (which is what preserves exactly-once delivery). -/
theorem late_registration_fires_whole_signal {s : GateState} {lid : Nat}
    (hen : s.enabled = true) (hwf : Wf s) (hlc : s.lconn lid = none) :
    ∃ t, RunsTo (.reg lid .act) s t ∧
      t.log = s.log ++
        (s.slots.filter (fun sl => sl.connected)).map
          (fun sl => ⟨sl.cid, sl.owner, true, s.prResolved, s.nextPass⟩) ++
        [⟨s.nextCid, lid, true, s.prResolved, s.nextPass⟩] ∧
      (∀ sl ∈ t.slots, sl.connected = false) := by
  have hwfG : Wf { regActFresh s lid with
      nextPass := (regActFresh s lid).nextPass + 1 } := wf_regActFresh hwf hlc
  have hfire := fire_all (regActFresh s lid).nextPass hwfG
  have hrr := runsTo_reg_enabled
    (show (regState lid .act s).enabled = true by
      rw [regState_enabled]; exact hen)
    (by rw [regState_act_fresh hlc]; exact hfire)
  refine ⟨_, hrr, ?_, ?_⟩
  · show (regActFresh s lid).log ++
      ((regActFresh s lid).slots.filter (fun sl => sl.connected)).map
        (fun sl => ⟨sl.cid, sl.owner, (regActFresh s lid).enabled,
          (regActFresh s lid).prResolved, (regActFresh s lid).nextPass⟩) = _
    show s.log ++ ((s.slots ++
      [(⟨s.nextCid, lid, true, .act⟩ : Slot)]).filter
        (fun sl => sl.connected)).map
        (fun sl => ⟨sl.cid, sl.owner, s.enabled, s.prResolved,
          s.nextPass⟩) = _
    rw [hen, List.filter_append, List.map_append, ← List.append_assoc]
    rfl
  · intro sl hsl
    have hsl2 : sl ∈ (regActFresh s lid).slots.map disSlot := hsl
    obtain ⟨x, _, rfl⟩ := List.mem_map.mp hsl2
    rfl

/-- C4.  Re-entrant registration: observers 1, 2, 3 are registered
before the transition, and observer 2's reaction registers a new
observer 4 on the now-enabled gate.  The run shows: 1 and 2 fire in the
outer broadcast (pass 0); the nested registration performed inside 2's
reaction triggers a nested signal invocation (pass 1) which fires the
still-connected observer 3 and then the new observer 4 — so observer 4
fires immediately inside the nested call, and is never invoked by the
outer pass 0; exactly two signal invocations happen, and every observer
fires exactly once. -/
theorem reentrant_registration_nested_fire :
    (runOps 20 [Op.register 1 .act, Op.register 2 (.register 4 .act),
        Op.register 3 .act, Op.enable] initState).map
      (fun s => (s.log, s.nextPass)) =
    some ([⟨0, 1, true, true, 0⟩, ⟨1, 2, true, true, 0⟩,
      ⟨2, 3, true, true, 1⟩, ⟨3, 4, true, true, 1⟩], 2) := by
  decide

/-! ### Disconnect-before-invoke -/

theorem connOf_disconnectCid_self (c : Nat) (s : GateState) :
    connOf c (disconnectCid c s) = false := by
  rw [connOf, List.any_eq_false]
  intro x hx
  have hx2 : x ∈ s.slots.map fun sl =>
      if sl.cid = c then { sl with connected := false } else sl := hx
  obtain ⟨sl, _, rfl⟩ := List.mem_map.mp hx2
  by_cases hc : sl.cid = c
  · rw [if_pos hc]
    simp
  · rw [if_neg hc]
    simp [hc]

theorem disconnectCid_idem (c : Nat) (s : GateState) :
    disconnectCid c (disconnectCid c s) = disconnectCid c s := by
  simp only [disconnectCid, List.map_map]
  congr 1
  refine List.map_congr_left ?_
  intro x _
  by_cases hc : x.cid = c
  · simp [hc]
  · simp [hc]

/-- C6.  The connection is severed before the reaction body runs, and a
reaction that destroys its own handle causes no double-disconnect:
(1) at the point `on_enabled()` starts (the state `callbackEntry`
produces), the connection the listener's `_conn` held is already dead;
(2) disconnecting a connection twice is a no-op (boost
`connection::disconnect` is idempotent), so the later disconnect issued
by the handle's destructor is harmless; (3) the interpreter really runs
every fired reaction on the `callbackEntry` state; (4) a concrete run in
which observer 7's reaction destroys observer 7's own handle succeeds,
fires exactly once and leaves the slot disconnected. -/
theorem disconnect_before_reaction :
    (∀ (s : GateState) (lid pass c : Nat), s.lconn lid = some c →
      connOf c (callbackEntry c lid pass s) = false) ∧
    (∀ (c : Nat) (s : GateState),
      disconnectCid c (disconnectCid c s) = disconnectCid c s) ∧
    (∀ (n pass c : Nat) (rest : List Nat) (s : GateState) (sl : Slot),
      s.slots.find? (fun x => x.cid == c) = some sl → sl.connected = true →
      run1 (n + 1) (.fire pass (c :: rest)) s =
        (run1 n (.react sl.reaction)
            (callbackEntry sl.cid sl.owner pass s)).bind
          (fun x => run1 n (.fire pass rest) x)) ∧
    ((runOps 10 [Op.register 7 (.destroy 7), Op.enable] initState).map
      (fun s => (s.log.map Ev.lid, s.slots.map Slot.connected)) =
      some ([7], [false])) := by
  refine ⟨?_, disconnectCid_idem, ?_, by decide⟩
  · intro s lid pass c hlc
    show connOf c { disconnectConn (s.lconn lid) s with
      log := (disconnectConn (s.lconn lid) s).log ++ _ } = false
    rw [hlc]
    show connOf c { disconnectCid c s with
      log := (disconnectCid c s).log ++ _ } = false
    have h := connOf_disconnectCid_self c s
    rw [connOf] at h ⊢
    exact h
  · intro n pass c rest s sl hfind hc
    rw [run1_fire_cons, hfind]
    show (if sl.connected = true then _ else _) = _
    rw [if_pos hc]

/-! ### Shared-future idempotence -/

theorem opsRunTo_awaits : ∀ (k : Nat) (s : GateState),
    OpsRunTo (List.replicate k Op.await) s s := by
  intro k
  induction k with
  | zero => intro s; exact opsRunTo_nil s
  | succ k ih =>
    intro s
    rw [List.replicate_succ]
    exact opsRunTo_cons (opRunsTo_await s) (ih s)

/-- C8.  The future-returning `when_enabled()` attaches to the gate's
single `shared_promise`: the call itself performs no state change (so
any number of awaiters share the same underlying result and trigger no
duplicate work), the future's resolution status is precisely the shared
promise's, and for any numbers of awaiters before and after the
transition the run succeeds, every caller ends with a resolved result,
and `set_value` ran exactly once. -/
theorem shared_future_idempotent :
    (∀ s : GateState, awaitOp s = s) ∧
    (∀ s : GateState, futResolved s = s.prResolved) ∧
    (∀ k₁ k₂ : Nat,
      ∃ s', OpsRunTo (List.replicate k₁ Op.await ++ [Op.enable] ++
          List.replicate k₂ Op.await) initState s' ∧
        futResolved s' = true ∧ s'.prSetCount = 1) := by
  refine ⟨fun _ => rfl, fun _ => rfl, ?_⟩
  intro k₁ k₂
  have hfire : RunsTo (.fire (enabledPre initState).nextPass
      ((enabledPre initState).slots.map Slot.cid))
    { enabledPre initState with
        nextPass := (enabledPre initState).nextPass + 1 }
    { enabledPre initState with
        nextPass := (enabledPre initState).nextPass + 1 } :=
    runsTo_fire_nil _ _
  refine ⟨_, opsRunTo_append (opsRunTo_append (opsRunTo_awaits k₁ initState)
    (opsRunTo_cons (opRunsTo_enable hfire) (opsRunTo_nil _)))
    (opsRunTo_awaits k₂ _), rfl, rfl⟩

/-! ### Destruction of a handle keeps the state well-formed -/

theorem destroyListener_log (lid : Nat) (s : GateState) :
    (destroyListener lid s).log = s.log := by
  show (disconnectConn (s.lconn lid) s).log = s.log
  exact disconnectConn_log _ _

theorem destroyListener_prSetCount (lid : Nat) (s : GateState) :
    (destroyListener lid s).prSetCount = s.prSetCount := by
  show (disconnectConn (s.lconn lid) s).prSetCount = s.prSetCount
  exact disconnectConn_prSetCount _ _

theorem flipSlot_cid (c : Nat) (y : Slot) :
    (if y.cid = c then { y with connected := false } else y).cid = y.cid := by
  by_cases h : y.cid = c <;> simp [h]

theorem flipSlot_reaction (c : Nat) (y : Slot) :
    (if y.cid = c then { y with connected := false } else y).reaction =
      y.reaction := by
  by_cases h : y.cid = c <;> simp [h]

theorem flipSlot_connected_true {c : Nat} {y : Slot}
    (h : (if y.cid = c then { y with connected := false } else y).connected =
      true) : y.connected = true ∧ y.cid ≠ c := by
  by_cases hc : y.cid = c
  · rw [if_pos hc] at h
    exact absurd h (by simp)
  · rw [if_neg hc] at h
    exact ⟨h, hc⟩

theorem flipSlot_owner (c : Nat) (y : Slot) :
    (if y.cid = c then { y with connected := false } else y).owner =
      y.owner := by
  by_cases h : y.cid = c <;> simp [h]

theorem wf_destroyListener {s : GateState} (lid : Nat) (hwf : Wf s) :
    Wf (destroyListener lid s) := by
  obtain ⟨h1, h2, h3, h4, h5⟩ := hwf
  cases hlc : s.lconn lid with
  | none =>
    refine ⟨?_, ?_, ?_, ?_, ?_⟩
    · intro sl hsl
      have hsl2 : sl ∈ (disconnectConn (s.lconn lid) s).slots := hsl
      rw [hlc] at hsl2
      exact h1 sl hsl2
    · show (((disconnectConn (s.lconn lid) s).slots).map Slot.cid).Nodup
      rw [hlc]
      exact h2
    · intro sl hsl
      have hsl2 : sl ∈ (disconnectConn (s.lconn lid) s).slots := hsl
      rw [hlc] at hsl2
      show sl.cid < (disconnectConn (s.lconn lid) s).nextCid
      rw [hlc]
      exact h3 sl hsl2
    · intro sl hsl hc
      have hsl2 : sl ∈ (disconnectConn (s.lconn lid) s).slots := hsl
      rw [hlc] at hsl2
      have hne : sl.owner ≠ lid := by
        intro heq
        have hx := h4 sl hsl2 hc
        rw [heq, hlc] at hx
        exact Option.noConfusion hx
      show (if sl.owner = lid then none
        else (disconnectConn (s.lconn lid) s).lconn sl.owner) = some sl.cid
      rw [if_neg hne, hlc]
      exact h4 sl hsl2 hc
    · intro l c hl
      have hl2 : (if l = lid then none
        else (disconnectConn (s.lconn lid) s).lconn l) = some c := hl
      show c < (disconnectConn (s.lconn lid) s).nextCid
      rw [hlc]
      by_cases he : l = lid
      · rw [if_pos he] at hl2
        exact Option.noConfusion hl2
      · rw [if_neg he, hlc] at hl2
        exact h5 l c hl2
  | some c0 =>
    have hslots : (destroyListener lid s).slots = s.slots.map
        (fun y => if y.cid = c0 then { y with connected := false } else y) := by
      show (disconnectConn (s.lconn lid) s).slots = _
      rw [hlc]
      rfl
    refine ⟨?_, ?_, ?_, ?_, ?_⟩
    · intro sl hsl
      rw [hslots] at hsl
      obtain ⟨y, hy, rfl⟩ := List.mem_map.mp hsl
      rw [flipSlot_reaction]
      exact h1 y hy
    · show (((destroyListener lid s).slots).map Slot.cid).Nodup
      rw [hslots, List.map_map]
      have : (Slot.cid ∘ fun y =>
          if y.cid = c0 then { y with connected := false } else y) =
          Slot.cid := by
        funext y
        exact flipSlot_cid c0 y
      rw [this]
      exact h2
    · intro sl hsl
      rw [hslots] at hsl
      obtain ⟨y, hy, rfl⟩ := List.mem_map.mp hsl
      show (if y.cid = c0 then { y with connected := false } else y).cid <
        (destroyListener lid s).nextCid
      rw [flipSlot_cid]
      show y.cid < (disconnectConn (s.lconn lid) s).nextCid
      rw [hlc]
      exact h3 y hy
    · intro sl hsl hc
      rw [hslots] at hsl
      obtain ⟨y, hy, rfl⟩ := List.mem_map.mp hsl
      obtain ⟨hyc, hyne⟩ := flipSlot_connected_true hc
      have hne : y.owner ≠ lid := by
        intro heq
        have hx := h4 y hy hyc
        rw [heq, hlc] at hx
        exact hyne (Option.some.inj hx).symm
      show (if (if y.cid = c0 then { y with connected := false }
          else y).owner = lid then none
        else (disconnectConn (s.lconn lid) s).lconn
          (if y.cid = c0 then { y with connected := false } else y).owner) =
        some (if y.cid = c0 then { y with connected := false } else y).cid
      rw [flipSlot_owner, flipSlot_cid, if_neg hne, hlc]
      show s.lconn y.owner = some y.cid
      exact h4 y hy hyc
    · intro l c hl
      have hl2 : (if l = lid then none
        else (disconnectConn (s.lconn lid) s).lconn l) = some c := hl
      show c < (disconnectConn (s.lconn lid) s).nextCid
      rw [hlc] at hl2 ⊢
      by_cases he : l = lid
      · rw [if_pos he] at hl2
        exact Option.noConfusion hl2
      · rw [if_neg he] at hl2
        exact h5 l c hl2

/-- C7.  Cancellation safety: register the distinct observers
`p1 ++ [d] ++ p2`, destroy observer `d`'s handle before the transition,
then enable.  The whole run (including the destruction) succeeds, `d`'s
reaction never runs, every other observer still fires exactly once in
registration order, and the gate still transitions normally. -/
theorem cancellation_safety (p1 p2 : List Nat) (d : Nat)
    (hnd : (p1 ++ d :: p2).Nodup) :
    ∃ s', OpsRunTo ((p1 ++ d :: p2).map (fun l => Op.register l .act) ++
        [Op.destroy d, Op.enable]) initState s' ∧
      s'.log.map Ev.lid = p1 ++ p2 ∧ d ∉ s'.log.map Ev.lid ∧
      s'.enabled = true ∧ s'.prResolved = true ∧ s'.prSetCount = 1 := by
  have hfresh : ∀ l ∈ (p1 ++ d :: p2), initState.lconn l = none :=
    fun l _ => rfl
  have hreg := regFold_run (p1 ++ d :: p2) initState rfl hnd hfresh
  have hwfE : Wf (regFold initState (p1 ++ d :: p2)) :=
    wf_regFold wf_init hnd hfresh
  have hEslots : (regFold initState (p1 ++ d :: p2)).slots =
      mkConSlots 0 p1 ++ (⟨p1.length, d, true, .act⟩ : Slot) ::
        mkConSlots (p1.length + 1) p2 := by
    rw [regFold_slots]
    show ([] : List Slot) ++ mkConSlots 0 (p1 ++ d :: p2) = _
    rw [List.nil_append, mkConSlots_append]
    show mkConSlots 0 p1 ++ ((⟨0 + p1.length, d, true, .act⟩ : Slot) ::
      mkConSlots (0 + p1.length + 1) p2) = _
    rw [Nat.zero_add]
  have hmemd : (⟨p1.length, d, true, .act⟩ : Slot) ∈
      (regFold initState (p1 ++ d :: p2)).slots := by
    rw [hEslots]
    exact List.mem_append.mpr (Or.inr (List.mem_cons_self _ _))
  have hlcd : (regFold initState (p1 ++ d :: p2)).lconn d = some p1.length :=
    hwfE.2.2.2.1 _ hmemd rfl
  have hDslots : (destroyListener d (regFold initState (p1 ++ d :: p2))).slots
      = mkConSlots 0 p1 ++ (⟨p1.length, d, false, .act⟩ : Slot) ::
        mkConSlots (p1.length + 1) p2 := by
    show (disconnectConn ((regFold initState (p1 ++ d :: p2)).lconn d)
      (regFold initState (p1 ++ d :: p2))).slots = _
    rw [hlcd]
    show (regFold initState (p1 ++ d :: p2)).slots.map
      (fun sl => if sl.cid = p1.length then { sl with connected := false }
        else sl) = _
    rw [hEslots, List.map_append, List.map_cons]
    have hA : (mkConSlots 0 p1).map
        (fun sl => if sl.cid = p1.length then { sl with connected := false }
          else sl) = mkConSlots 0 p1 := by
      refine map_id_of_eq ?_
      intro x hx
      have hb := (mkConSlots_mem hx).2.2.2
      rw [if_neg (by omega)]
    have hB : (mkConSlots (p1.length + 1) p2).map
        (fun sl => if sl.cid = p1.length then { sl with connected := false }
          else sl) = mkConSlots (p1.length + 1) p2 := by
      refine map_id_of_eq ?_
      intro x hx
      have hb := (mkConSlots_mem hx).2.2.1
      rw [if_neg (by omega)]
    rw [hA, hB]
    simp
  have hwfD := wf_destroyListener d hwfE
  have hwfF : Wf { enabledPre (destroyListener d
      (regFold initState (p1 ++ d :: p2))) with
      nextPass := (enabledPre (destroyListener d
        (regFold initState (p1 ++ d :: p2)))).nextPass + 1 } := hwfD
  have hfire := fire_all (enabledPre (destroyListener d
    (regFold initState (p1 ++ d :: p2)))).nextPass hwfF
  have hrun := opsRunTo_append hreg
    (opsRunTo_cons (opRunsTo_destroy d _)
      (opsRunTo_cons (opRunsTo_enable hfire) (opsRunTo_nil _)))
  have hfilter : (destroyListener d
      (regFold initState (p1 ++ d :: p2))).slots.filter
      (fun sl => sl.connected) =
      mkConSlots 0 p1 ++ mkConSlots (p1.length + 1) p2 := by
    rw [hDslots, List.filter_append]
    rw [show ((⟨p1.length, d, false, .act⟩ : Slot) ::
      mkConSlots (p1.length + 1) p2).filter (fun sl => sl.connected) =
      (mkConSlots (p1.length + 1) p2).filter (fun sl => sl.connected) from by
        simp]
    rw [mkConSlots_filter_connected, mkConSlots_filter_connected]
  have hdnotin : d ∉ p1 ++ p2 := by
    intro hm
    rcases List.mem_append.mp hm with hm | hm
    · exact (List.nodup_append.mp hnd).2.2 hm (List.mem_cons_self _ _)
    · exact (List.nodup_cons.mp (List.nodup_append.mp hnd).2.1).1 hm
  have hown : ∀ (c0 p : Nat) (a b : Bool) (ls : List Nat),
      (mkConSlots c0 ls).map (Ev.lid ∘ fun sl =>
        (⟨sl.cid, sl.owner, a, b, p⟩ : Ev)) = ls := by
    intro c0 p a b ls
    induction ls generalizing c0 with
    | nil => rfl
    | cons a t ih => simp [mkConSlots, ih]
  have hlogval : ((destroyListener d
      (regFold initState (p1 ++ d :: p2))).log ++
      ((destroyListener d (regFold initState (p1 ++ d :: p2))).slots.filter
        (fun sl => sl.connected)).map
        (fun sl => (⟨sl.cid, sl.owner, true, true,
          (destroyListener d (regFold initState (p1 ++ d :: p2))).nextPass⟩ :
            Ev))
      ).map Ev.lid = p1 ++ p2 := by
    rw [destroyListener_log, regFold_log, hfilter]
    show (([] : List Ev) ++ _).map Ev.lid = _
    rw [List.nil_append, List.map_append, List.map_append, List.map_map,
      List.map_map, hown, hown]
  refine ⟨_, hrun, ?_, ?_, rfl, rfl, ?_⟩
  · show ((destroyListener d (regFold initState (p1 ++ d :: p2))).log ++
      ((destroyListener d (regFold initState (p1 ++ d :: p2))).slots.filter
        (fun sl => sl.connected)).map
        (fun sl => (⟨sl.cid, sl.owner, true, true,
          (destroyListener d (regFold initState (p1 ++ d :: p2))).nextPass⟩ :
            Ev))
      ).map Ev.lid = p1 ++ p2
    exact hlogval
  · show d ∉ ((destroyListener d (regFold initState (p1 ++ d :: p2))).log ++
      ((destroyListener d (regFold initState (p1 ++ d :: p2))).slots.filter
        (fun sl => sl.connected)).map
        (fun sl => (⟨sl.cid, sl.owner, true, true,
          (destroyListener d (regFold initState (p1 ++ d :: p2))).nextPass⟩ :
            Ev))
      ).map Ev.lid
    rw [hlogval]
    exact hdnotin
  · show (destroyListener d (regFold initState (p1 ++ d :: p2))).prSetCount
      + 1 = 1
    rw [destroyListener_prSetCount, regFold_prSetCount]
    rfl

/-! ### Re-registration replaces the held connection -/

theorem connOf_false_of_allDis {s : GateState}
    (h : ∀ sl ∈ s.slots, sl.connected = false) (c : Nat) :
    connOf c s = false := by
  rw [connOf, List.any_eq_false]
  intro x hx
  simp [h x hx]

theorem liveConnCount_allDis {s : GateState}
    (h : ∀ sl ∈ s.slots, sl.connected = false) (lid : Nat) :
    liveConnCount lid s = 0 := by
  rw [liveConnCount, List.length_eq_zero, List.filter_eq_nil_iff]
  intro x hx
  simp [h x hx]

/-- Once a connection is dead (and its id is in the past), no later
interpreter run can ever produce a log entry through it. -/
theorem dead_conn_no_ev {t : GateState} {c : Nat} (hdead : connOf c t = false)
    (hlt : c < t.nextCid) :
    ∀ (fuel : Nat) (j : Job) (u : GateState), run1 fuel j t = some u →
    ∀ e ∈ u.log, e ∈ t.log ∨ e.cid ≠ c := by
  intro fuel j u hrun e he
  rcases (run1_inv hrun).new_ev e he with h | h | h
  · exact Or.inl h
  · right
    intro heq
    rw [heq] at h
    rw [h] at hdead
    exact Bool.noConfusion hdead
  · right
    intro heq
    rw [heq] at h
    omega

/-- `when_enabled(listener&)` keeps a well-formed state well-formed,
also when the listener is re-registered (its previous connection is
disconnected by the `scoped_connection` move-assignment). -/
theorem wf_regState {s : GateState} (lid : Nat) (hwf : Wf s) :
    Wf (regState lid .act s) := by
  cases hlc : s.lconn lid with
  | none =>
    rw [regState_act_fresh hlc]
    exact wf_regActFresh hwf hlc
  | some c0 =>
    obtain ⟨h1, h2, h3, h4, h5⟩ := hwf
    have hc0 : c0 < s.nextCid := h5 lid c0 hlc
    have hslots : (regState lid .act s).slots =
        (s.slots ++ [(⟨s.nextCid, lid, true, .act⟩ : Slot)]).map
          (fun y => if y.cid = c0 then { y with connected := false }
            else y) := by
      show (disconnectConn (s.lconn lid) _).slots = _
      rw [hlc]
      rfl
    have hmem : ∀ sl : Slot, sl ∈ (s.slots ++
        [(⟨s.nextCid, lid, true, .act⟩ : Slot)]) →
        sl ∈ s.slots ∨ sl = ⟨s.nextCid, lid, true, .act⟩ := by
      intro sl hsl
      rcases List.mem_append.mp hsl with hm | hm
      · exact Or.inl hm
      · exact Or.inr (List.mem_singleton.mp hm)
    refine ⟨?_, ?_, ?_, ?_, ?_⟩
    · intro sl hsl
      rw [hslots] at hsl
      obtain ⟨y, hy, rfl⟩ := List.mem_map.mp hsl
      rw [flipSlot_reaction]
      rcases hmem y hy with hm | hm
      · exact h1 y hm
      · rw [hm]
    · show (((regState lid .act s).slots).map Slot.cid).Nodup
      rw [hslots, List.map_map]
      have hcomp : (Slot.cid ∘ fun y =>
          if y.cid = c0 then { y with connected := false } else y) =
          Slot.cid := by
        funext y
        exact flipSlot_cid c0 y
      rw [hcomp, List.map_append]
      refine List.Nodup.append h2 (by simp) ?_
      intro x hx hy
      simp only [List.map_cons, List.map_nil, List.mem_singleton] at hy
      obtain ⟨sl, hsl, rfl⟩ := List.mem_map.mp hx
      exact absurd hy (Nat.ne_of_lt (h3 sl hsl))
    · intro sl hsl
      rw [hslots] at hsl
      obtain ⟨y, hy, rfl⟩ := List.mem_map.mp hsl
      show (if y.cid = c0 then { y with connected := false } else y).cid <
        (regState lid .act s).nextCid
      rw [flipSlot_cid, regState_nextCid]
      rcases hmem y hy with hm | hm
      · exact Nat.lt_succ_of_lt (h3 y hm)
      · rw [hm]
        exact Nat.lt_succ_self _
    · intro sl hsl hc
      rw [hslots] at hsl
      obtain ⟨y, hy, rfl⟩ := List.mem_map.mp hsl
      obtain ⟨hyc, hyne⟩ := flipSlot_connected_true hc
      have hgoal : (regState lid .act s).lconn
          (if y.cid = c0 then { y with connected := false } else y).owner =
          (if (if y.cid = c0 then { y with connected := false } else y).owner
            = lid then some s.nextCid
          else s.lconn
            (if y.cid = c0 then { y with connected := false }
              else y).owner) := by
        rw [regState_lconn]
      rw [hgoal, flipSlot_owner, flipSlot_cid]
      rcases hmem y hy with hm | hm
      · have hne : y.owner ≠ lid := by
          intro heq
          have hx := h4 y hm hyc
          rw [heq, hlc] at hx
          exact hyne (Option.some.inj hx).symm
        rw [if_neg hne]
        exact h4 y hm hyc
      · rw [hm]
        simp
    · intro l c hl
      have hl2 : (if l = lid then some s.nextCid else s.lconn l) = some c := by
        have hx := hl
        rw [regState_lconn] at hx
        exact hx
      show c < (regState lid .act s).nextCid
      rw [regState_nextCid]
      by_cases he : l = lid
      · rw [if_pos he] at hl2
        cases hl2
        exact Nat.lt_succ_self _
      · rw [if_neg he] at hl2
        exact Nat.lt_succ_of_lt (h5 l c hl2)

theorem liveConnCount_regState_le {s : GateState} {lid c : Nat} (hwf : Wf s)
    (hlc : s.lconn lid = some c) :
    liveConnCount lid (regState lid .act s) ≤ 1 := by
  obtain ⟨h1, h2, h3, h4, h5⟩ := hwf
  have hslots : (regState lid .act s).slots =
      (s.slots ++ [(⟨s.nextCid, lid, true, .act⟩ : Slot)]).map
        (fun y => if y.cid = c then { y with connected := false }
          else y) := by
    show (disconnectConn (s.lconn lid) _).slots = _
    rw [hlc]
    rfl
  rw [liveConnCount, hslots, List.map_append, List.filter_append,
    List.length_append]
  have hX : ((s.slots.map (fun y => if y.cid = c
      then { y with connected := false } else y)).filter
      (fun sl => sl.owner == lid && sl.connected)).length = 0 := by
    rw [List.length_eq_zero, List.filter_eq_nil_iff]
    intro x hx
    obtain ⟨y, hy, rfl⟩ := List.mem_map.mp hx
    intro hp
    simp only [Bool.and_eq_true, beq_iff_eq] at hp
    obtain ⟨hown, hconn⟩ := hp
    rw [flipSlot_owner] at hown
    obtain ⟨hyc, hyne⟩ := flipSlot_connected_true hconn
    have hx2 := h4 y hy hyc
    rw [hown, hlc] at hx2
    exact hyne (Option.some.inj hx2).symm
  rw [hX]
  have hle := List.length_filter_le (fun sl => sl.owner == lid && sl.connected)
    ([(⟨s.nextCid, lid, true, .act⟩ : Slot)].map
      (fun y => if y.cid = c then { y with connected := false } else y))
  simp only [List.length_map, List.length_cons, List.length_nil] at hle
  omega

/-! ### A two-gate view of connection replacement

The `scoped_connection` move-assignment inside
`listener::set_connection` disconnects whatever connection the listener
held before, regardless of which gate's signal that connection belongs
to.  This minimal second embedding follows one listener across two
gates (A and B): each gate has an enabled flag and a slot list of
`(connection id, connected)` pairs; `conn` is the listener's `_conn`;
`fires` counts how often its reaction ran. -/
structure TwoGate where
  enA : Bool
  enB : Bool
  slotsA : List (Nat × Bool)
  slotsB : List (Nat × Bool)
  conn : Option (Bool × Nat)
  nextCid : Nat
  fires : Nat
deriving DecidableEq

/-- Disconnect the held connection (in whichever gate it lives). -/
def tgDisc : Option (Bool × Nat) → TwoGate → TwoGate
  | none, t => t
  | some (g, c), t =>
    if g then
      { t with
          slotsB := t.slotsB.map
            (fun p => if p.1 = c then (p.1, false) else p) }
    else
      { t with
          slotsA := t.slotsA.map
            (fun p => if p.1 = c then (p.1, false) else p) }

def tgSlots (g : Bool) (t : TwoGate) : List (Nat × Bool) :=
  if g then t.slotsB else t.slotsA

/-- Walk a signal-invocation snapshot of gate `g`; a still-connected
slot runs `listener::callback`: disconnect `_conn`, then the reaction
(counted). -/
def tgFireList : List Nat → Bool → TwoGate → TwoGate
  | [], _, t => t
  | c :: rest, g, t =>
    match (tgSlots g t).find? (fun p => p.1 == c) with
    | some p =>
      if p.2 then
        tgFireList rest g
          { tgDisc t.conn t with fires := (tgDisc t.conn t).fires + 1 }
      else tgFireList rest g t
    | none => tgFireList rest g t

def tgFire (g : Bool) (t : TwoGate) : TwoGate :=
  tgFireList ((tgSlots g t).map Prod.fst) g t

/-- `when_enabled(listener&)` against gate `g`: connect at the back,
store the new connection in `_conn` (disconnecting the previously held
one, wherever it lives), then fire `g`'s whole signal if `g` is already
enabled. -/
def tgRegister (g : Bool) (t : TwoGate) : TwoGate :=
  let c := t.nextCid
  let t1 := if g then
      { t with slotsB := t.slotsB ++ [(c, true)], nextCid := c + 1 }
    else { t with slotsA := t.slotsA ++ [(c, true)], nextCid := c + 1 }
  let t2 := tgDisc t.conn { t1 with conn := some (g, c) }
  if (if g then t2.enB else t2.enA) then tgFire g t2 else t2

/-- Modelled from the spec: the transition of gate `g` (the body of
`feature::enable()` is not under src/): set the flag, then invoke the
broadcaster once. -/
def tgEnable (g : Bool) (t : TwoGate) : TwoGate :=
  tgFire g (if g then { t with enB := true } else { t with enA := true })

def tgInit : TwoGate := ⟨false, false, [], [], none, 0, 0⟩

/-- Re-registering or freshly registering a plain-action listener on an
enabled well-formed gate succeeds and ends with every slot
disconnected; the listener's `_conn` is the connection `regState`
installs. -/
theorem rereg_step_enabled {s : GateState} (lid : Nat)
    (hen : s.enabled = true) (hwf : Wf s) :
    ∃ t, RunsTo (.reg lid .act) s t ∧
      t.lconn = (regState lid .act s).lconn ∧
      t.nextCid = (regState lid .act s).nextCid ∧
      (∀ sl ∈ t.slots, sl.connected = false) := by
  have hwfG : Wf { regState lid .act s with
      nextPass := (regState lid .act s).nextPass + 1 } := wf_regState lid hwf
  have hfire := fire_all (regState lid .act s).nextPass hwfG
  have hrr := runsTo_reg_enabled
    (show (regState lid .act s).enabled = true by
      rw [regState_enabled]; exact hen) hfire
  refine ⟨_, hrr, rfl, rfl, ?_⟩
  intro sl hsl
  have hsl2 : sl ∈ (regState lid .act s).slots.map disSlot := hsl
  obtain ⟨x, _, rfl⟩ := List.mem_map.mp hsl2
  rfl

/-- C10.  Re-registering a listener replaces its stored connection and
disconnects the earlier subscription.
Same gate (full model): from any well-formed state in which listener
`lid` already holds connection `c`, running `when_enabled(listener&)`
again leaves `lid` holding exactly the fresh connection, the old
connection dead, at most one live connection for `lid`, and no later
run can ever fire an event through `c`.
Different gates (two-gate model): registering on gate A and then on
gate B leaves A's slot disconnected and only B's live; enabling A then
fires nothing, and enabling B fires the listener exactly once. -/
theorem reregistration_replaces_connection :
    (∀ (s : GateState) (lid c : Nat), Wf s → s.lconn lid = some c →
      ∃ t, RunsTo (.reg lid .act) s t ∧
        t.lconn lid = some s.nextCid ∧ connOf c t = false ∧
        liveConnCount lid t ≤ 1 ∧
        (∀ (fuel : Nat) (j : Job) (u : GateState), run1 fuel j t = some u →
          ∀ e ∈ u.log, e ∈ t.log ∨ e.cid ≠ c)) ∧
    ((tgRegister true (tgRegister false tgInit)).slotsA = [(0, false)] ∧
      (tgRegister true (tgRegister false tgInit)).slotsB = [(1, true)] ∧
      (tgRegister true (tgRegister false tgInit)).conn = some (true, 1) ∧
      (tgEnable false (tgRegister true (tgRegister false tgInit))).fires
        = 0 ∧
      (tgEnable true (tgEnable false (tgRegister true
        (tgRegister false tgInit)))).fires = 1) := by
  constructor
  · intro s lid c hwf hlc
    have hc : c < s.nextCid := hwf.2.2.2.2 lid c hlc
    cases hen : s.enabled with
    | false =>
      have hrr : RunsTo (.reg lid .act) s (regState lid .act s) :=
        runsTo_reg_disabled (by rw [regState_enabled]; exact hen)
      have hdead : connOf c (regState lid .act s) = false := by
        show connOf c (disconnectConn (s.lconn lid) _) = false
        rw [hlc]
        exact connOf_disconnectCid_self c _
      refine ⟨regState lid .act s, hrr, ?_, hdead, ?_, ?_⟩
      · have hx := congrFun (regState_lconn lid .act s) lid
        simpa using hx
      · exact liveConnCount_regState_le hwf hlc
      · refine dead_conn_no_ev hdead ?_
        rw [regState_nextCid]
        omega
    | true =>
      obtain ⟨t, hrr, hlconn, hnc, hdis⟩ := rereg_step_enabled lid hen hwf
      refine ⟨t, hrr, ?_, connOf_false_of_allDis hdis c, ?_, ?_⟩
      · have hx : t.lconn lid = (regState lid .act s).lconn lid :=
          congrFun hlconn lid
        rw [regState_lconn] at hx
        simpa using hx
      · rw [liveConnCount_allDis hdis lid]
        omega
      · refine dead_conn_no_ev (connOf_false_of_allDis hdis c) ?_
        rw [hnc, regState_nextCid]
        omega
  · exact ⟨rfl, rfl, rfl, rfl, rfl⟩

/-! ### Concrete witness states -/

/-- An enabled gate whose single listener 5 has already fired. -/
def wStateA : GateState :=
  ⟨true, true, 1, [⟨0, 5, false, Reaction.act⟩],
    fun l => if l = 5 then some 0 else none, 1, 1, []⟩

/-- An enabled gate with listener 5 still connected. -/
def wStateB : GateState :=
  ⟨true, true, 1, [⟨0, 5, true, Reaction.act⟩],
    fun l => if l = 5 then some 0 else none, 1, 1, []⟩

/-- A disabled gate with listener 5 registered and connected. -/
def wStateC : GateState :=
  ⟨false, false, 0, [⟨0, 5, true, Reaction.act⟩],
    fun l => if l = 5 then some 0 else none, 1, 0, []⟩

/-- The gate state right after enabling a fresh gate with no
listeners. -/
def wStateE : GateState :=
  ⟨true, true, 1, [], fun _ => none, 0, 1, []⟩

theorem wf_wStateA : Wf wStateA := by
  refine ⟨by decide, by decide, by decide, by decide, ?_⟩
  intro l c h
  have h2 : (if l = 5 then some 0 else none : Option Nat) = some c := h
  by_cases hl : l = 5
  · rw [if_pos hl] at h2
    cases h2
    decide
  · rw [if_neg hl] at h2
    exact Option.noConfusion h2

theorem wf_wStateB : Wf wStateB := by
  refine ⟨by decide, by decide, by decide, by decide, ?_⟩
  intro l c h
  have h2 : (if l = 5 then some 0 else none : Option Nat) = some c := h
  by_cases hl : l = 5
  · rw [if_pos hl] at h2
    cases h2
    decide
  · rw [if_neg hl] at h2
    exact Option.noConfusion h2

theorem wf_wStateC : Wf wStateC := by
  refine ⟨by decide, by decide, by decide, by decide, ?_⟩
  intro l c h
  have h2 : (if l = 5 then some 0 else none : Option Nat) = some c := h
  by_cases hl : l = 5
  · rw [if_pos hl] at h2
    cases h2
    decide
  · rw [if_neg hl] at h2
    exact Option.noConfusion h2

/-! ### Witnesses -/

/-- Witness for C1 at observers 1, 2 before and 3 after the
transition. -/
theorem exactly_once_delivery_witness :
    ∃ s', OpsRunTo ([1, 2].map (fun l => Op.register l Reaction.act) ++
        [Op.enable] ++ [3].map (fun l => Op.register l Reaction.act))
      initState s' ∧
      s'.log.map Ev.lid = [1, 2] ++ [3] ∧
      (∀ l, (s'.log.map Ev.lid).count l =
        if l ∈ [1, 2] ++ [3] then 1 else 0) :=
  exactly_once_delivery [1, 2] [3] (by decide)

/-- Witness for C2 at observers 1, 2, 3. -/
theorem transition_effect_order_witness :
    ∃ s', OpsRunTo ([1, 2, 3].map (fun l => Op.register l Reaction.act) ++
        [Op.enable]) initState s' ∧
      s'.enabled = true ∧ s'.prResolved = true ∧ s'.prSetCount = 1 ∧
      s'.nextPass = 1 ∧
      s'.log.map (fun e => (e.lid, e.enabledAt, e.prAt, e.passId)) =
        [1, 2, 3].map (fun l => (l, true, true, 0)) :=
  transition_effect_order [1, 2, 3] (by decide)

/-- Witness for C3: registering observer 7 on the enabled gate
`wStateA`. -/
theorem late_registration_immediate_fire_witness :
    ∃ t, RunsTo (.reg 7 .act) wStateA t ∧
      t.log = wStateA.log ++
        [⟨wStateA.nextCid, 7, true, wStateA.prResolved, wStateA.nextPass⟩] :=
  late_registration_immediate_fire rfl wf_wStateA (by decide) (by decide)

/-- Witness for C5: the run `[enable]` and the observer list `[1]`. -/
theorem gate_state_invariants_witness :
    ((wStateE.enabled = true ↔ Op.enable ∈ [Op.enable]) ∧
      wStateE.prResolved = wStateE.enabled) ∧
    (∃ s', OpsRunTo ([1].map (fun l => Op.register l Reaction.act) ++
        [Op.enable]) initState s' ∧
      ∀ l ∈ [1], l ∈ s'.log.map Ev.lid) :=
  ⟨gate_state_invariants.1 [Op.enable] 1 wStateE rfl,
    gate_state_invariants.2 [1] (by decide)⟩

/-- Witness for C6: entering listener 5's callback on `wStateC` leaves
its connection 0 dead before the reaction body runs. -/
theorem disconnect_before_reaction_witness :
    connOf 0 (callbackEntry 0 5 0 wStateC) = false :=
  disconnect_before_reaction.1 wStateC 5 0 0 (by decide)

/-- Witness for C7: observers 1, 2, 3 with observer 2 destroyed before
the transition. -/
theorem cancellation_safety_witness :
    ∃ s', OpsRunTo (([1] ++ 2 :: [3]).map
        (fun l => Op.register l Reaction.act) ++
        [Op.destroy 2, Op.enable]) initState s' ∧
      s'.log.map Ev.lid = [1] ++ [3] ∧ 2 ∉ s'.log.map Ev.lid ∧
      s'.enabled = true ∧ s'.prResolved = true ∧ s'.prSetCount = 1 :=
  cancellation_safety [1] [3] 2 (by decide)

/-- Witness for C9: registering observer 7 on `wStateB`, whose
listener 5 is still connected, fires 5 and then 7 inside the call. -/
theorem late_registration_fires_whole_signal_witness :
    ∃ t, RunsTo (.reg 7 .act) wStateB t ∧
      t.log = wStateB.log ++
        (wStateB.slots.filter (fun sl => sl.connected)).map
          (fun sl => ⟨sl.cid, sl.owner, true, wStateB.prResolved,
            wStateB.nextPass⟩) ++
        [⟨wStateB.nextCid, 7, true, wStateB.prResolved,
          wStateB.nextPass⟩] ∧
      (∀ sl ∈ t.slots, sl.connected = false) :=
  late_registration_fires_whole_signal rfl wf_wStateB (by decide)

/-- Witness for C10: re-registering listener 5 on `wStateC`, where it
already holds connection 0. -/
theorem reregistration_replaces_connection_witness :
    ∃ t, RunsTo (.reg 5 .act) wStateC t ∧
      t.lconn 5 = some wStateC.nextCid ∧ connOf 0 t = false ∧
      liveConnCount 5 t ≤ 1 ∧
      (∀ (fuel : Nat) (j : Job) (u : GateState), run1 fuel j t = some u →
        ∀ e ∈ u.log, e ∈ t.log ∨ e.cid ≠ 0) :=
  reregistration_replaces_connection.1 wStateC 5 0 wf_wStateC (by decide)

end Gms
